import Mathlib

/-!
# Verification of the Sudoku generator/solver core

Shallow embedding of the repository's core: the grid data model
(`utils.py`, class `SudokuGrid`), the backtracking solver
(`solvers/sudoku_solver_backtracking.py`, class `SudokuSolver`), the
randomized generator (`sudoku_generator.py`, class `SudokuGenerator`),
and the character encoding (`utils.py`, `char_to_value` / `value_to_char`).

Grids are `List (List Nat)` (Python lists of lists of ints restricted to
naturals, which is the domain actually used by the program). In-place
mutation is modelled by explicit state passing: a Python method that
mutates `self.grid` becomes a function returning the new grid, and
`solve`'s boolean result is paired with the final grid state.
The recursion of `solve` / `_fill_grid` is expressed with an explicit
fuel argument; the entry points supply fuel `countZeros g + 1`, which is
exactly the depth the recursion can reach (each recursive level fills
one empty cell), so the out-of-fuel branch is unreachable from the entry
points. Python's `random.shuffle` outcomes are modelled by a universally
quantified oracle giving the permutation drawn at each call.
-/

namespace Sudoku

/-- A Sudoku grid: a list of rows, each a list of cell values (`0` = empty). -/
abbrev Grid := List (List Nat)

/-- Read `self.grid[r][c]`, totalised with default `0` out of range. -/
def cell (g : Grid) (r c : Nat) : Nat := (g.getD r []).getD c 0

/-- Write `self.grid[r][c] = v` (no-op out of range, like `List.set`). -/
def setCell (g : Grid) (r c v : Nat) : Grid := g.set r ((g.getD r []).set c v)

/-- Number of empty (zero) cells of the grid; used as the fuel bound. -/
def countZeros : Grid → Nat
  | [] => 0
  | row :: rest => row.count 0 + countZeros rest

/-- Index of the first `0` in a row, if any. -/
def findZero : List Nat → Option Nat
  | [] => none
  | x :: xs => if x = 0 then some 0 else (findZero xs).map (· + 1)

/-- Row-major scan for the first empty cell, starting at row index `i`. -/
def findEmptyAux : Grid → Nat → Option (Nat × Nat)
  | [], _ => none
  | row :: rest, i =>
    match findZero row with
    | some j => some (i, j)
    | none => findEmptyAux rest (i + 1)

/-- `find_empty_cell` (identical in `SudokuSolver` and `SudokuGrid`):
first cell in row-major order whose value is `0`, `none` if the grid is
fully assigned. -/
def find_empty_cell (g : Grid) : Option (Nat × Nat) := findEmptyAux g 0

/-- Largest `b ≤ m` with `b * b ≤ n` (linear search from `m` down). -/
def isqrtGo (n : Nat) : Nat → Nat
  | 0 => 0
  | b + 1 => if (b + 1) * (b + 1) ≤ n then b + 1 else isqrtGo n b

/-- Integer square root, the value of Python's `int(size**0.5)` for the
inputs the program handles. Defined by bounded search so that it
evaluates by kernel reduction; `isqrt_eq_sqrt` identifies it with
`Nat.sqrt`. -/
def isqrt (n : Nat) : Nat := isqrtGo n n

/-- `SudokuSolver.is_valid` (backtracking solver file): `num` appears
nowhere in row `row`, column `col`, nor in the `box_size × box_size` box
containing `(row, col)`, scanning indices `0..size-1` as the Python
loops do. `sz` is the solver's `self.size`; `self.box_size = int(size**0.5)`
is `isqrt sz`. -/
def solver_is_valid (sz : Nat) (g : Grid) (row col num : Nat) : Bool :=
  ((List.range sz).all fun c => cell g row c != num) &&
  ((List.range sz).all fun r => cell g r col != num) &&
  (let bs := isqrt sz
   let startRow := (row / bs) * bs
   let startCol := (col / bs) * bs
   (List.range bs).all fun i =>
     (List.range bs).all fun j => cell g (startRow + i) (startCol + j) != num)

/-- `SudokuGrid.is_valid` (utils file): same checks, except the row test
is Python's `num in self.grid[row]` (membership in the actual row list). -/
def grid_is_valid (sz : Nat) (g : Grid) (row col num : Nat) : Bool :=
  !((g.getD row []).contains num) &&
  ((List.range sz).all fun i => cell g i col != num) &&
  (let bs := isqrt sz
   let boxRow := (row / bs) * bs
   let boxCol := (col / bs) * bs
   (List.range bs).all fun i =>
     (List.range bs).all fun j => cell g (boxRow + i) (boxCol + j) != num)

instance {ε α : Type} [DecidableEq ε] [DecidableEq α] : DecidableEq (Except ε α) :=
  fun a b =>
    match a, b with
    | .ok x, .ok y =>
      if h : x = y then .isTrue (h ▸ rfl) else .isFalse (fun hc => h (Except.ok.inj hc))
    | .error e, .error f =>
      if h : e = f then .isTrue (h ▸ rfl) else .isFalse (fun hc => h (Except.error.inj hc))
    | .ok _, .error _ => .isFalse (fun hc => Except.noConfusion hc)
    | .error _, .ok _ => .isFalse (fun hc => Except.noConfusion hc)

/-- The result of `SudokuGrid.__init__`: the stored fields. -/
structure SudokuGrid where
  size : Nat
  box_size : Nat
  grid : Grid
deriving Repr, DecidableEq

/-- `SudokuGrid.__init__(size)`: rejects sizes that are not perfect
squares (`int(size**0.5)**2 != size`, i.e. `(isqrt size)^2 ≠ size`),
otherwise builds an all-zero `size × size` grid with
`box_size = int(size**0.5)`. -/
def sudokuGridInit (size : Nat) : Except String SudokuGrid :=
  if isqrt size * isqrt size ≠ size then
    .error ("taille invalide: pas un carre parfait")
  else
    .ok ⟨size, isqrt size, List.replicate size (List.replicate size 0)⟩

/-- `char_to_value` (utils): `'.' ↦ 0`, digits to their value, letters
(case-insensitively) to `10..35`, anything else is an error. -/
def char_to_value (c : Char) : Except String Nat :=
  if c = '.' then .ok 0
  else if c.isDigit then .ok (c.toNat - '0'.toNat)
  else if ("ABCDEFGHIJKLMNOPQRSTUVWXYZ".toList).contains c.toUpper then
    .ok (c.toUpper.toNat - 'A'.toNat + 10)
  else .error ("caractere invalide")

/-- `value_to_char` (utils): `0 ↦ '.'`, `1..9` to the digit character,
`10..35` to `'A'..'Z'`, anything else is an error. -/
def value_to_char (v : Nat) : Except String Char :=
  if v = 0 then .ok '.'
  else if 1 ≤ v ∧ v ≤ 9 then .ok (Char.ofNat ('0'.toNat + v))
  else if 10 ≤ v ∧ v ≤ 35 then .ok (Char.ofNat ('A'.toNat + v - 10))
  else .error ("valeur invalide")

/-- Serialize a grid one character per cell, one row per line
(the character content of `save_grid_to_file`). -/
def encodeGrid (g : Grid) : Except String (List (List Char)) :=
  g.mapM fun row => row.mapM value_to_char

/-- Decode lines of characters back to a grid (the character content of
`load_grid_from_file`). -/
def decodeGrid (lines : List (List Char)) : Except String Grid :=
  lines.mapM fun line => line.mapM char_to_value

/-- The candidate loop of `SudokuSolver.solve`: try each `num` of `nums`
in order; on a valid placement write it and run the rest of the search
(`next`, the recursive `solve`); on failure of the recursive call clear
the cell back to `0` and try the next candidate. Returns the Python
method's boolean together with the final state of `self.grid`. -/
def tryNums (sz : Nat) (next : Grid → Bool × Grid) (g : Grid) (row col : Nat) :
    List Nat → Bool × Grid
  | [] => (false, g)
  | num :: rest =>
    if solver_is_valid sz g row col num then
      match next (setCell g row col num) with
      | (true, g2) => (true, g2)
      | (false, g2) => tryNums sz next (setCell g2 row col 0) row col rest
    else tryNums sz next g row col rest

/-- `SudokuSolver.solve` with explicit fuel: no empty cell means the
grid is complete (`True`); otherwise try candidates `1..size` in
ascending order at the first empty cell. Fuel `0` (unreachable from
`solve`) reports failure with the grid untouched. -/
def solveFuel (sz : Nat) : Nat → Grid → Bool × Grid
  | 0, g => (false, g)
  | fuel + 1, g =>
    match find_empty_cell g with
    | none => (true, g)
    | some (row, col) => tryNums sz (solveFuel sz fuel) g row col (List.range' 1 sz)

/-- `SudokuSolver.solve()` on a solver initialised with grid `g`
(`self.size = len(grid)`): final boolean and final grid state. -/
def solve (g : Grid) : Bool × Grid := solveFuel g.length (countZeros g + 1) g

/-- The candidate loop of `SudokuGenerator._fill_grid`: like the
solver's, but the validity check is `SudokuGrid.is_valid` and the
candidate list comes from a `random.shuffle`; the oracle index `k`
(number of shuffles drawn so far) is threaded through. -/
def fillTry (sz : Nat) (next : Grid → Nat → Bool × Grid × Nat) (g : Grid)
    (row col : Nat) : List Nat → Nat → Bool × Grid × Nat
  | [], k => (false, g, k)
  | num :: rest, k =>
    if grid_is_valid sz g row col num then
      match next (setCell g row col num) k with
      | (true, g2, k2) => (true, g2, k2)
      | (false, g2, k2) => fillTry sz next (setCell g2 row col 0) row col rest k2
    else fillTry sz next g row col rest k

/-- `SudokuGenerator._fill_grid` with explicit fuel: at each empty cell
the candidate order is `oracle k`, the outcome of the `k`-th
`random.shuffle(list(range(1, size + 1)))` of the run. -/
def fillFuel (sz : Nat) (oracle : Nat → List Nat) :
    Nat → Grid → Nat → Bool × Grid × Nat
  | 0, g, k => (false, g, k)
  | fuel + 1, g, k =>
    match find_empty_cell g with
    | none => (true, g, k)
    | some (row, col) => fillTry sz (fillFuel sz oracle fuel) g row col (oracle k) (k + 1)

/-- `SudokuGenerator.generate_complete_grid`: build `SudokuGrid(size)`
(which fails on a non-perfect-square size) and run `_fill_grid` on it.
The returned triple exposes `_fill_grid`'s boolean (discarded by the
Python code), the resulting grid, and the number of shuffles drawn. -/
def generate_complete_grid (size : Nat) (oracle : Nat → List Nat) :
    Except String (Bool × Grid × Nat) :=
  match sudokuGridInit size with
  | .error e => .error e
  | .ok sg => .ok (fillFuel size oracle (countZeros sg.grid + 1) sg.grid 0)

/-- `cells_to_remove` as computed by `SudokuGenerator.create_puzzle`
(`sudoku_generator.py`): `size * 7/8/9` for easy/medium/anything-else,
clamped to `size*size - size`. -/
def cells_to_remove (size : Nat) (difficulty : String) : Nat :=
  let base :=
    if difficulty = ("easy") then size * 7
    else if difficulty = ("medium") then size * 8
    else size * 9
  min base (size * size - size)

/-- The removal loop of `create_puzzle`: blank the first `m` positions
of the shuffled position list. -/
def removeCells (g : Grid) (positions : List (Nat × Nat)) (m : Nat) : Grid :=
  (positions.take m).foldl (fun acc p => setCell acc p.1 p.2 0) g

/-- The shuffled `positions` list of `create_puzzle` is a permutation of
this enumeration of all coordinate pairs. -/
def allCoords (size : Nat) : List (Nat × Nat) :=
  (List.range size).flatMap fun i => (List.range size).map fun j => (i, j)

/-- `SudokuGenerator.create_puzzle`: generate a complete grid, then
blank `cells_to_remove` cells, at the first positions of the shuffled
coordinate list (modelled by the `positions` parameter). -/
def create_puzzle (size : Nat) (oracle : Nat → List Nat)
    (positions : List (Nat × Nat)) (difficulty : String) : Except String Grid :=
  match generate_complete_grid size oracle with
  | .error e => .error e
  | .ok (_, g, _) => .ok (removeCells g positions (cells_to_remove size difficulty))

/-! ## Specification-side predicates -/

/-- Well-formed grid of box dimension `b`: a `b*b × b*b` matrix whose
cells lie in `[0, b*b]` (the data model's cell domain). -/
def WfGrid (b : Nat) (g : Grid) : Prop :=
  g.length = b * b ∧ (∀ row ∈ g, row.length = b * b) ∧
    (∀ row ∈ g, ∀ v ∈ row, v ≤ b * b)

instance (b : Nat) (g : Grid) : Decidable (WfGrid b g) := by
  unfold WfGrid; infer_instance

/-- No two equal non-zero cells share a row. -/
def RowsConsistent (b : Nat) (g : Grid) : Prop :=
  ∀ r, r < b * b → ∀ c, c < b * b → ∀ c', c' < b * b → c ≠ c' →
    cell g r c ≠ 0 → cell g r c ≠ cell g r c'

/-- No two equal non-zero cells share a column. -/
def ColsConsistent (b : Nat) (g : Grid) : Prop :=
  ∀ c, c < b * b → ∀ r, r < b * b → ∀ r', r' < b * b → r ≠ r' →
    cell g r c ≠ 0 → cell g r c ≠ cell g r' c

/-- No two equal non-zero cells share a box (`r / b` and `c / b` are the
box coordinates of a cell). -/
def BoxesConsistent (b : Nat) (g : Grid) : Prop :=
  ∀ r, r < b * b → ∀ c, c < b * b → ∀ r', r' < b * b → ∀ c', c' < b * b →
    r / b = r' / b → c / b = c' / b → (r, c) ≠ (r', c') →
    cell g r c ≠ 0 → cell g r c ≠ cell g r' c'

set_option synthInstance.maxSize 1000 in
set_option synthInstance.maxHeartbeats 1000000 in
instance (b : Nat) (g : Grid) : Decidable (RowsConsistent b g) := by
  unfold RowsConsistent; infer_instance

set_option synthInstance.maxSize 1000 in
set_option synthInstance.maxHeartbeats 1000000 in
instance (b : Nat) (g : Grid) : Decidable (ColsConsistent b g) := by
  unfold ColsConsistent; infer_instance

set_option synthInstance.maxSize 10000 in
set_option synthInstance.maxHeartbeats 4000000 in
instance (b : Nat) (g : Grid) : Decidable (BoxesConsistent b g) := by
  unfold BoxesConsistent; infer_instance

def Consistent (b : Nat) (g : Grid) : Prop :=
  RowsConsistent b g ∧ ColsConsistent b g ∧ BoxesConsistent b g

instance (b : Nat) (g : Grid) : Decidable (Consistent b g) := by
  unfold Consistent; infer_instance

/-- No empty cell remains. -/
def NoZeroCells (b : Nat) (g : Grid) : Prop :=
  ∀ r, r < b * b → ∀ c, c < b * b → cell g r c ≠ 0

instance (b : Nat) (g : Grid) : Decidable (NoZeroCells b g) := by
  unfold NoZeroCells; infer_instance

/-- The cells of row `r` as a list. -/
def rowOf (g : Grid) (b r : Nat) : List Nat :=
  (List.range (b * b)).map fun c => cell g r c

/-- The cells of column `c` as a list. -/
def colOf (g : Grid) (b c : Nat) : List Nat :=
  (List.range (b * b)).map fun r => cell g r c

/-- The cells of the box with box coordinates `(bi, bj)` as a list. -/
def boxOf (g : Grid) (b bi bj : Nat) : List Nat :=
  (List.range (b * b)).map fun t => cell g (bi * b + t / b) (bj * b + t % b)

/-- The solved-grid invariant: every row, column and box contains each
value of `[1, b*b]` exactly once. -/
def Solved (b : Nat) (g : Grid) : Prop :=
  (∀ r, r < b * b → ∀ v, v ≤ b * b → 1 ≤ v → (rowOf g b r).count v = 1) ∧
  (∀ c, c < b * b → ∀ v, v ≤ b * b → 1 ≤ v → (colOf g b c).count v = 1) ∧
  (∀ bi, bi < b → ∀ bj, bj < b → ∀ v, v ≤ b * b → 1 ≤ v →
    (boxOf g b bi bj).count v = 1)

set_option synthInstance.maxSize 1000 in
set_option synthInstance.maxHeartbeats 1000000 in
instance (b : Nat) (g : Grid) : Decidable (Solved b g) := by
  unfold Solved; infer_instance

/-- `g'` preserves every non-zero cell of `g`. -/
def ExtendsTo (g g' : Grid) : Prop :=
  ∀ r c, cell g r c ≠ 0 → cell g' r c = cell g r c

/-- The specification of the validity check: `num` appears at no in-range
position of row `row`, of column `col`, nor of the box containing
`(row, col)`. -/
def ValidAt (b : Nat) (g : Grid) (row col num : Nat) : Prop :=
  (∀ c, c < b * b → cell g row c ≠ num) ∧
  (∀ r, r < b * b → cell g r col ≠ num) ∧
  (∀ i, i < b → ∀ j, j < b → cell g (row / b * b + i) (col / b * b + j) ≠ num)

instance (b : Nat) (g : Grid) (row col num : Nat) :
    Decidable (ValidAt b g row col num) := by
  unfold ValidAt; infer_instance

/-- `s` is a valid completion of the partial grid `g`. -/
def Completes (b : Nat) (g s : Grid) : Prop :=
  WfGrid b s ∧ Consistent b s ∧ NoZeroCells b s ∧ ExtendsTo g s

/-- The canonical solved grid of box dimension `b`:
`cell (r, c) = (b * (r % b) + r / b + c) % (b * b) + 1`. -/
def formulaGrid (b : Nat) : Grid :=
  (List.range (b * b)).map fun r =>
    (List.range (b * b)).map fun c => (b * (r % b) + r / b + c) % (b * b) + 1

/-- The 4×4 puzzle of the spec's concrete scenario. -/
def g4 : Grid := [[1, 2, 0, 0], [3, 4, 0, 0], [0, 0, 1, 2], [0, 0, 3, 4]]

/-- What the solver actually produces on `g4`. -/
def g4solution : Grid := [[1, 2, 4, 3], [3, 4, 2, 1], [4, 3, 1, 2], [2, 1, 3, 4]]

/-- The solution the spec claims for `g4` (it contradicts the clue at
`(2, 2)`, which is `1` in `g4` but `4` here). -/
def g4claimed : Grid := [[1, 2, 3, 4], [3, 4, 1, 2], [2, 1, 4, 3], [4, 3, 2, 1]]

/-- A 4×4 grid whose single empty cell `(3, 3)` admits no candidate:
row 3 blocks 2, 3, 4 and column 3 blocks 1. -/
def gUnsat : Grid := [[1, 2, 3, 1], [3, 4, 1, 2], [2, 1, 4, 3], [4, 3, 2, 0]]

/-- A 4×4 grid with a same-row duplicate (`1` at `(0,0)` and `(0,1)`)
whose single empty cell `(3, 3)` can still be filled. -/
def gDup : Grid := [[1, 1, 3, 4], [3, 4, 1, 2], [2, 1, 4, 3], [4, 3, 2, 0]]

/-- A complete valid 4×4 grid, used as a generator output fixture. -/
def gFull4 : Grid := [[1, 2, 3, 4], [3, 4, 1, 2], [2, 1, 4, 3], [4, 3, 2, 1]]

/-! ## Basic facts about cells and updates -/

theorem extendsTo_refl (g : Grid) : ExtendsTo g g := fun _ _ _ => rfl

theorem extendsTo_trans {g1 g2 g3 : Grid} (h12 : ExtendsTo g1 g2)
    (h23 : ExtendsTo g2 g3) : ExtendsTo g1 g3 := by
  intro r c hne
  have h2 := h12 r c hne
  have := h23 r c (by rw [h2]; exact hne)
  rw [this, h2]

theorem length_setCell (g : Grid) (r c v : Nat) :
    (setCell g r c v).length = g.length := by
  simp [setCell]

theorem getD_setCell_ne (g : Grid) {r r' : Nat} (c v : Nat) (h : r' ≠ r) :
    (setCell g r c v).getD r' [] = g.getD r' [] := by
  simp only [setCell, List.getD_eq_getElem?_getD]
  rw [List.getElem?_set_ne (fun he => h he.symm)]

theorem setCell_out_of_range (g : Grid) {r : Nat} (c v : Nat)
    (h : g.length ≤ r) : setCell g r c v = g :=
  List.set_eq_of_length_le h

theorem getD_setCell_self (g : Grid) {r : Nat} (c v : Nat) (h : r < g.length) :
    (setCell g r c v).getD r [] = (g.getD r []).set c v := by
  simp only [setCell, List.getD_eq_getElem?_getD]
  rw [List.getElem?_set_self h, Option.getD_some]

theorem getD_mem (g : Grid) {r : Nat} (h : r < g.length) : g.getD r [] ∈ g :=
  List.getD_eq_getElem g [] h ▸ List.getElem_mem h

theorem rowlen_setCell (g : Grid) (r c v r' : Nat) :
    ((setCell g r c v).getD r' []).length = (g.getD r' []).length := by
  by_cases hl : r < g.length
  · by_cases h : r' = r
    · subst h
      rw [getD_setCell_self g c v hl, List.length_set]
    · rw [getD_setCell_ne g c v h]
  · rw [setCell_out_of_range g c v (Nat.le_of_not_lt hl)]

theorem cell_setCell_self (g : Grid) {r c : Nat} (v : Nat)
    (hr : r < g.length) (hc : c < (g.getD r []).length) :
    cell (setCell g r c v) r c = v := by
  unfold cell
  rw [getD_setCell_self g c v hr]
  simp only [List.getD_eq_getElem?_getD]
  rw [List.getElem?_set_self (by simpa using hc), Option.getD_some]

theorem cell_setCell_ne (g : Grid) {r c r' c' : Nat} (v : Nat)
    (h : (r', c') ≠ (r, c)) :
    cell (setCell g r c v) r' c' = cell g r' c' := by
  by_cases hl : r < g.length
  · unfold cell
    by_cases hr : r' = r
    · subst hr
      have hc : c' ≠ c := fun he => h (by rw [he])
      rw [getD_setCell_self g c v hl]
      simp only [List.getD_eq_getElem?_getD]
      rw [List.getElem?_set_ne (fun he => hc he.symm)]
    · rw [getD_setCell_ne g c v hr]
  · rw [setCell_out_of_range g c v (Nat.le_of_not_lt hl)]

theorem setCell_setCell (g : Grid) (r c v w : Nat) :
    setCell (setCell g r c v) r c w = setCell g r c w := by
  by_cases hl : r < g.length
  · show (setCell g r c v).set r (((setCell g r c v).getD r []).set c w) = _
    rw [getD_setCell_self g c v hl, List.set_set]
    show (g.set r ((g.getD r []).set c v)).set r ((g.getD r []).set c w) = _
    rw [List.set_set]
    rfl
  · rw [setCell_out_of_range g c v (Nat.le_of_not_lt hl)]

theorem setCell_zero_of_cell_zero {g : Grid} {r c : Nat}
    (h : cell g r c = 0) : setCell g r c 0 = g := by
  by_cases hl : r < g.length
  · have hrow : (g.getD r []).set c 0 = g.getD r [] := by
      apply List.ext_getElem?
      intro n
      rw [List.getElem?_set]
      split
      · next he =>
        subst he
        split
        · next hlt =>
          unfold cell at h
          rw [List.getD_eq_getElem _ 0 hlt] at h
          rw [List.getElem?_eq_getElem hlt, h]
        · next hge => rw [List.getElem?_eq_none (Nat.le_of_not_lt hge)]
      · rfl
    unfold setCell
    rw [hrow]
    apply List.ext_getElem?
    intro n
    rw [List.getElem?_set]
    by_cases he : r = n
    · subst he
      rw [if_pos rfl, if_pos hl, List.getElem?_eq_getElem hl,
        List.getD_eq_getElem g [] hl]
    · rw [if_neg he]
  · exact setCell_out_of_range g c 0 (Nat.le_of_not_lt hl)

theorem wfGrid_setCell {b : Nat} {g : Grid} {r c v : Nat}
    (hwf : WfGrid b g) (hv : v ≤ b * b) : WfGrid b (setCell g r c v) := by
  by_cases hl : r < g.length
  · obtain ⟨hlen, hrows, hvals⟩ := hwf
    refine ⟨by rw [length_setCell]; exact hlen, ?_, ?_⟩
    · intro row hrow
      unfold setCell at hrow
      rcases List.mem_or_eq_of_mem_set hrow with h | h
      · exact hrows row h
      · subst h
        rw [List.length_set]
        exact hrows _ (getD_mem g hl)
    · intro row hrow x hx
      unfold setCell at hrow
      rcases List.mem_or_eq_of_mem_set hrow with h | h
      · exact hvals row h x hx
      · subst h
        rcases List.mem_or_eq_of_mem_set hx with h' | h'
        · exact hvals _ (getD_mem g hl) x h'
        · subst h'; exact hv
  · rw [setCell_out_of_range g c v (Nat.le_of_not_lt hl)]
    exact hwf

theorem cell_le_of_wf {b : Nat} {g : Grid} (hwf : WfGrid b g) (r c : Nat) :
    cell g r c ≤ b * b := by
  obtain ⟨hlen, hrows, hvals⟩ := hwf
  unfold cell
  by_cases hr : r < g.length
  · by_cases hc : c < (g.getD r []).length
    · exact hvals _ (getD_mem g hr) _ (List.getD_eq_getElem _ 0 hc ▸ List.getElem_mem hc)
    · rw [List.getD_eq_default _ 0 (Nat.le_of_not_lt hc)]
      exact Nat.zero_le _
  · rw [List.getD_eq_default _ [] (Nat.le_of_not_lt hr)]
    simp

/-! ## Facts about `countZeros` -/

theorem countZeros_append (g1 g2 : Grid) :
    countZeros (g1 ++ g2) = countZeros g1 + countZeros g2 := by
  induction g1 with
  | nil => simp [countZeros]
  | cons row rest ih => simp [countZeros, ih]; omega

theorem count_row_le_countZeros (g : Grid) (r : Nat) :
    (g.getD r []).count 0 ≤ countZeros g := by
  induction g generalizing r with
  | nil => simp [countZeros]
  | cons hd tl ih =>
    cases r with
    | zero => simp only [List.getD_cons_zero, countZeros]; omega
    | succ n =>
      simp only [List.getD_cons_succ, countZeros]
      have := ih n
      omega

theorem countZeros_set (g : Grid) (r : Nat) (row : List Nat) (hr : r < g.length) :
    countZeros (g.set r row) =
      countZeros g - (g.getD r []).count 0 + row.count 0 := by
  induction g generalizing r with
  | nil => simp at hr
  | cons hd tl ih =>
    cases r with
    | zero =>
      simp only [List.set_cons_zero, countZeros, List.getD_cons_zero]
      have : List.count 0 hd ≤ List.count 0 hd + countZeros tl := Nat.le_add_right _ _
      omega
    | succ n =>
      simp only [List.set_cons_succ, countZeros, List.getD_cons_succ]
      have hn : n < tl.length := by simpa using hr
      rw [ih n hn]
      have := count_row_le_countZeros tl n
      omega

theorem count_zero_set_of_ne_zero {row : List Nat} {c : Nat} {v : Nat}
    (hc : c < row.length) (hold : row[c] = 0) (hv : v ≠ 0) :
    (row.set c v).count 0 + 1 = row.count 0 := by
  rw [List.count_set v 0 row c hc]
  have hpos : 0 < row.count 0 := by
    rw [List.count_pos_iff]
    exact hold ▸ List.getElem_mem hc
  simp [hold, hv]
  omega

theorem count_zero_unset {row : List Nat} {c : Nat}
    (hc : c < row.length) (hold : row[c] ≠ 0) :
    (row.set c 0).count 0 = row.count 0 + 1 := by
  rw [List.count_set 0 0 row c hc]
  have hbeq : (row[c] == 0) = false := by simpa using hold
  simp [hbeq]

theorem countZeros_setCell_fill {g : Grid} {r c v : Nat}
    (hr : r < g.length) (hc : c < (g.getD r []).length)
    (hz : cell g r c = 0) (hv : v ≠ 0) :
    countZeros (setCell g r c v) + 1 = countZeros g := by
  unfold setCell
  rw [countZeros_set g r _ hr]
  have hcell : (g.getD r [])[c] = 0 := by
    unfold cell at hz
    rw [List.getD_eq_getElem _ 0 hc] at hz
    exact hz
  have h1 := count_zero_set_of_ne_zero hc hcell hv
  have h2 := count_row_le_countZeros g r
  omega

theorem countZeros_setCell_clear {g : Grid} {r c : Nat}
    (hr : r < g.length) (hc : c < (g.getD r []).length)
    (hnz : cell g r c ≠ 0) :
    countZeros (setCell g r c 0) = countZeros g + 1 := by
  unfold setCell
  rw [countZeros_set g r _ hr]
  have hcell : (g.getD r [])[c] ≠ 0 := by
    unfold cell at hnz
    rw [List.getD_eq_getElem _ 0 hc] at hnz
    exact hnz
  have h1 := count_zero_unset hc hcell
  have h2 := count_row_le_countZeros g r
  omega

theorem countZeros_pos {g : Grid} {r c : Nat}
    (hr : r < g.length) (hc : c < (g.getD r []).length)
    (hz : cell g r c = 0) : 0 < countZeros g := by
  have hcnt : 0 < (g.getD r []).count 0 := by
    rw [List.count_pos_iff]
    unfold cell at hz
    rw [List.getD_eq_getElem _ 0 hc] at hz
    exact hz ▸ List.getElem_mem hc
  have h2 := count_row_le_countZeros g r
  omega

/-! ## Facts about `find_empty_cell` -/

theorem findZero_some {row : List Nat} {j : Nat} (h : findZero row = some j) :
    j < row.length ∧ row.getD j 0 = 0 := by
  induction row generalizing j with
  | nil => simp [findZero] at h
  | cons x xs ih =>
    by_cases hx : x = 0
    · simp [findZero, hx] at h
      subst h
      simp [hx]
    · simp only [findZero, if_neg hx, Option.map_eq_some'] at h
      obtain ⟨j', hj', hjj⟩ := h
      obtain ⟨hlt, hval⟩ := ih hj'
      subst hjj
      constructor
      · simpa using hlt
      · rw [List.getD_cons_succ]; exact hval

theorem findZero_none {row : List Nat} (h : findZero row = none) :
    ∀ x ∈ row, x ≠ 0 := by
  induction row with
  | nil => simp
  | cons x xs ih =>
    by_cases hx : x = 0
    · simp [findZero, hx] at h
    · simp only [findZero, if_neg hx, Option.map_eq_none'] at h
      intro y hy
      rcases List.mem_cons.mp hy with hyx | hyxs
      · subst hyx; exact hx
      · exact ih h y hyxs

theorem findEmptyAux_some {g : Grid} {i r c : Nat}
    (h : findEmptyAux g i = some (r, c)) :
    ∃ k, k < g.length ∧ r = i + k ∧ c < (g.getD k []).length ∧
      (g.getD k []).getD c 0 = 0 := by
  induction g generalizing i with
  | nil => simp [findEmptyAux] at h
  | cons row rest ih =>
    simp only [findEmptyAux] at h
    rcases hz : findZero row with _ | j
    · rw [hz] at h
      obtain ⟨k, hk, hr, hc, hval⟩ := ih h
      exact ⟨k + 1, by simpa using hk, by omega, by simpa using hc, by simpa using hval⟩
    · rw [hz] at h
      obtain ⟨hri, hcj⟩ := Prod.mk.inj (Option.some.inj h)
      subst hri; subst hcj
      obtain ⟨hlt, hval⟩ := findZero_some hz
      exact ⟨0, by simp, by simp, by simpa using hlt, by simpa using hval⟩

theorem findEmptyAux_none {g : Grid} {i : Nat}
    (h : findEmptyAux g i = none) : ∀ row ∈ g, ∀ x ∈ row, x ≠ 0 := by
  induction g generalizing i with
  | nil => simp
  | cons row rest ih =>
    simp only [findEmptyAux] at h
    rcases hz : findZero row with _ | j
    · rw [hz] at h
      intro row' hrow'
      rcases List.mem_cons.mp hrow' with he | hm
      · subst he; exact findZero_none hz
      · exact ih h row' hm
    · rw [hz] at h; exact absurd h (by simp)

theorem find_empty_cell_some {g : Grid} {r c : Nat}
    (h : find_empty_cell g = some (r, c)) :
    r < g.length ∧ c < (g.getD r []).length ∧ cell g r c = 0 := by
  obtain ⟨k, hk, hr, hc, hval⟩ := findEmptyAux_some h
  have : r = k := by omega
  subst this
  exact ⟨hk, hc, hval⟩

theorem find_empty_cell_none {g : Grid} (h : find_empty_cell g = none) :
    ∀ row ∈ g, ∀ x ∈ row, x ≠ 0 :=
  findEmptyAux_none h

theorem noZeroCells_of_find_none {b : Nat} {g : Grid} (hwf : WfGrid b g)
    (h : find_empty_cell g = none) : NoZeroCells b g := by
  intro r hr c hc
  have hrl : r < g.length := hwf.1 ▸ hr
  have hrow : g.getD r [] ∈ g := getD_mem g hrl
  have hcl : c < (g.getD r []).length := (hwf.2.1 _ hrow) ▸ hc
  unfold cell
  rw [List.getD_eq_getElem _ 0 hcl]
  exact find_empty_cell_none h _ hrow _ (List.getElem_mem hcl)

/-! ## The validity checks against their specification -/

theorem isqrtGo_sq_le (n : Nat) : ∀ m, isqrtGo n m * isqrtGo n m ≤ n := by
  intro m
  induction m with
  | zero => exact Nat.zero_le n
  | succ b ih =>
    unfold isqrtGo
    split
    · assumption
    · exact ih

theorem le_isqrtGo (n : Nat) : ∀ m b, b ≤ m → b * b ≤ n → b ≤ isqrtGo n m := by
  intro m
  induction m with
  | zero => intro b hb _; omega
  | succ m ih =>
    intro b hb hsq
    unfold isqrtGo
    split
    · exact hb
    · next hno =>
      rcases Nat.lt_or_ge b (m + 1) with hlt | hge
      · exact ih b (by omega) hsq
      · have hbe : b = m + 1 := by omega
        exact absurd (hbe ▸ hsq) hno

theorem isqrt_eq_sqrt (n : Nat) : isqrt n = Nat.sqrt n :=
  Nat.le_antisymm (Nat.le_sqrt.mpr (isqrtGo_sq_le n n))
    (le_isqrtGo n n (Nat.sqrt n) (Nat.sqrt_le_self n) (Nat.sqrt_le n))

theorem sqrt_mul_self (b : Nat) : isqrt (b * b) = b := by
  rw [isqrt_eq_sqrt]
  have := Nat.sqrt_eq' b
  rwa [Nat.pow_two] at this

theorem solver_is_valid_iff (b : Nat) (g : Grid) (row col num : Nat) :
    solver_is_valid (b * b) g row col num = true ↔ ValidAt b g row col num := by
  unfold solver_is_valid ValidAt
  rw [sqrt_mul_self b]
  simp only [Bool.and_eq_true, List.all_eq_true, List.mem_range, bne_iff_ne]
  constructor
  · rintro ⟨⟨h1, h2⟩, h3⟩
    exact ⟨fun c hc => h1 c hc, fun r hr => h2 r hr, fun i hi j hj => h3 i hi j hj⟩
  · rintro ⟨h1, h2, h3⟩
    exact ⟨⟨fun c hc => h1 c hc, fun r hr => h2 r hr⟩, fun i hi j hj => h3 i hi j hj⟩

theorem mem_row_iff_cell {b : Nat} {g : Grid} {row : Nat} (hwf : WfGrid b g)
    (hrow : row < b * b) (num : Nat) :
    (g.getD row []).contains num = true ↔ ∃ c, c < b * b ∧ cell g row c = num := by
  have hrl : row < g.length := hwf.1 ▸ hrow
  have hlen : (g.getD row []).length = b * b := hwf.2.1 _ (getD_mem g hrl)
  rw [show ((g.getD row []).contains num = true) ↔ num ∈ g.getD row [] from
    List.elem_iff, List.mem_iff_getElem]
  constructor
  · rintro ⟨c, hc, hval⟩
    refine ⟨c, hlen ▸ hc, ?_⟩
    unfold cell
    rw [List.getD_eq_getElem _ 0 hc, hval]
  · rintro ⟨c, hc, hval⟩
    have hc' : c < (g.getD row []).length := hlen ▸ hc
    refine ⟨c, hc', ?_⟩
    unfold cell at hval
    rwa [List.getD_eq_getElem _ 0 hc'] at hval

theorem grid_is_valid_iff {b : Nat} {g : Grid} {row : Nat} (hwf : WfGrid b g)
    (hrow : row < b * b) (col num : Nat) :
    grid_is_valid (b * b) g row col num = true ↔ ValidAt b g row col num := by
  unfold grid_is_valid ValidAt
  rw [sqrt_mul_self b]
  simp only [Bool.and_eq_true, List.all_eq_true, List.mem_range, bne_iff_ne,
    Bool.not_eq_true']
  constructor
  · rintro ⟨⟨h1, h2⟩, h3⟩
    refine ⟨?_, fun r hr => h2 r hr, fun i hi j hj => h3 i hi j hj⟩
    intro c hc hval
    have : (g.getD row []).contains num = true :=
      (mem_row_iff_cell hwf hrow num).mpr ⟨c, hc, hval⟩
    rw [h1] at this
    exact Bool.false_ne_true this
  · rintro ⟨h1, h2, h3⟩
    refine ⟨⟨?_, fun r hr => h2 r hr⟩, fun i hi j hj => h3 i hi j hj⟩
    rw [← Bool.not_eq_true]
    intro hmem
    obtain ⟨c, hc, hval⟩ := (mem_row_iff_cell hwf hrow num).mp hmem
    exact h1 c hc hval

/-! ## Placement preserves the invariants -/

theorem extendsTo_setCell {g : Grid} {r c : Nat} (v : Nat)
    (hz : cell g r c = 0) : ExtendsTo g (setCell g r c v) := by
  intro r' c' hnz
  by_cases he : (r', c') = (r, c)
  · obtain ⟨h1, h2⟩ := Prod.mk.inj he
    subst h1; subst h2
    exact absurd hz hnz
  · exact cell_setCell_ne g v he

theorem pos_b_of_lt {b x : Nat} (h : x < b * b) : 0 < b := by
  rcases Nat.eq_zero_or_pos b with hb | hb
  · subst hb; simp at h
  · exact hb

theorem same_box_row_eq {b row r' : Nat} (hb : 0 < b)
    (h : r' / b = row / b) : row / b * b + r' % b = r' := by
  have := Nat.div_add_mod r' b
  calc row / b * b + r' % b = b * (r' / b) + r' % b := by rw [h, Nat.mul_comm]
    _ = r' := Nat.div_add_mod r' b

theorem consistent_setCell {b : Nat} {g : Grid} {row col num : Nat}
    (hwf : WfGrid b g) (hcons : Consistent b g) (hrow : row < b * b)
    (hcol : col < b * b) (hz : cell g row col = 0)
    (hvalid : ValidAt b g row col num) :
    Consistent b (setCell g row col num) := by
  have hb : 0 < b := pos_b_of_lt hrow
  have hrl : row < g.length := hwf.1 ▸ hrow
  have hcl : col < (g.getD row []).length := (hwf.2.1 _ (getD_mem g hrl)) ▸ hcol
  have hself : cell (setCell g row col num) row col = num :=
    cell_setCell_self g num hrl hcl
  have hne : ∀ r c, (r, c) ≠ (row, col) →
      cell (setCell g row col num) r c = cell g r c :=
    fun r c h => cell_setCell_ne g num h
  obtain ⟨hrows, hcols, hboxes⟩ := hcons
  refine ⟨?_, ?_, ?_⟩
  · intro r hr c hc c' hc' hcc hnz
    by_cases hA : (r, c) = (row, col)
    · obtain ⟨h1, h2⟩ := Prod.mk.inj hA
      subst h1; subst h2
      have hB : (r, c') ≠ (r, c) := fun he => hcc (Prod.mk.inj he).2.symm
      rw [hself, hne r c' (by rwa [(Prod.mk.inj hA).2] at hB)]
      intro heq
      exact hvalid.1 c' hc' heq.symm
    · rw [hne r c hA]
      by_cases hB : (r, c') = (row, col)
      · obtain ⟨h1, h2⟩ := Prod.mk.inj hB
        subst h1; subst h2
        rw [hself]
        intro heq
        exact hvalid.1 c hc heq
      · rw [hne r c' hB]
        exact hrows r hr c hc c' hc' hcc (by rwa [hne r c hA] at hnz)
  · intro c hc r hr r' hr' hrr hnz
    by_cases hA : (r, c) = (row, col)
    · obtain ⟨h1, h2⟩ := Prod.mk.inj hA
      subst h1; subst h2
      have hB : (r', c) ≠ (r, c) := fun he => hrr (Prod.mk.inj he).1.symm
      rw [hself, hne r' c hB]
      intro heq
      exact hvalid.2.1 r' hr' heq.symm
    · rw [hne r c hA]
      by_cases hB : (r', c) = (row, col)
      · obtain ⟨h1, h2⟩ := Prod.mk.inj hB
        subst h1; subst h2
        rw [hself]
        intro heq
        exact hvalid.2.1 r hr heq
      · rw [hne r' c hB]
        exact hcols c hc r hr r' hr' hrr (by rwa [hne r c hA] at hnz)
  · intro r hr c hc r' hr' c' hc' hbr hbc hpair hnz
    by_cases hA : (r, c) = (row, col)
    · obtain ⟨h1, h2⟩ := Prod.mk.inj hA
      subst h1; subst h2
      have hB : (r', c') ≠ (r, c) := Ne.symm hpair
      rw [hself, hne r' c' hB]
      intro heq
      have hcell : cell g (r / b * b + r' % b) (c / b * b + c' % b) ≠ num :=
        hvalid.2.2 (r' % b) (Nat.mod_lt _ hb) (c' % b) (Nat.mod_lt _ hb)
      rw [same_box_row_eq hb hbr.symm, same_box_row_eq hb hbc.symm] at hcell
      exact hcell heq.symm
    · rw [hne r c hA]
      by_cases hB : (r', c') = (row, col)
      · obtain ⟨h1, h2⟩ := Prod.mk.inj hB
        subst h1; subst h2
        rw [hself]
        intro heq
        have hcell : cell g (r' / b * b + r % b) (c' / b * b + c % b) ≠ num :=
          hvalid.2.2 (r % b) (Nat.mod_lt _ hb) (c % b) (Nat.mod_lt _ hb)
        rw [same_box_row_eq hb hbr, same_box_row_eq hb hbc] at hcell
        exact hcell heq
      · rw [hne r' c' hB]
        exact hboxes r hr c hc r' hr' c' hc' hbr hbc hpair
          (by rwa [hne r c hA] at hnz)

/-! ## The solver: restoration, frame and soundness -/

theorem tryNums_restore {sz : Nat} {next : Grid → Bool × Grid}
    (hnext : ∀ g g', next g = (false, g') → g' = g)
    {g : Grid} {row col : Nat} (hz : cell g row col = 0) :
    ∀ nums g', tryNums sz next g row col nums = (false, g') → g' = g := by
  intro nums
  induction nums with
  | nil =>
    intro g' h
    simpa [tryNums] using (Prod.mk.inj h).2.symm
  | cons num rest ih =>
    intro g' h
    by_cases hv : solver_is_valid sz g row col num = true
    · rw [show tryNums sz next g row col (num :: rest) =
        (if solver_is_valid sz g row col num then
          match next (setCell g row col num) with
          | (true, g2) => (true, g2)
          | (false, g2) => tryNums sz next (setCell g2 row col 0) row col rest
        else tryNums sz next g row col rest) from rfl, if_pos hv] at h
      rcases hres : next (setCell g row col num) with ⟨ok, g2⟩
      rw [hres] at h
      cases ok
      · have hg2 : g2 = setCell g row col num := hnext _ _ hres
        have hclr : setCell g2 row col 0 = g := by
          rw [hg2, setCell_setCell, setCell_zero_of_cell_zero hz]
        simp only at h
        rw [hclr] at h
        exact ih g' h
      · simp at h
    · rw [show tryNums sz next g row col (num :: rest) =
        (if solver_is_valid sz g row col num then
          match next (setCell g row col num) with
          | (true, g2) => (true, g2)
          | (false, g2) => tryNums sz next (setCell g2 row col 0) row col rest
        else tryNums sz next g row col rest) from rfl, if_neg hv] at h
      exact ih g' h

theorem solveFuel_restore (sz : Nat) :
    ∀ fuel g g', solveFuel sz fuel g = (false, g') → g' = g := by
  intro fuel
  induction fuel with
  | zero =>
    intro g g' h
    simpa [solveFuel] using (Prod.mk.inj h).2.symm
  | succ fuel ih =>
    intro g g' h
    rw [show solveFuel sz (fuel + 1) g =
      (match find_empty_cell g with
       | none => (true, g)
       | some (row, col) =>
          tryNums sz (solveFuel sz fuel) g row col (List.range' 1 sz)) from rfl] at h
    rcases hfe : find_empty_cell g with _ | ⟨row, col⟩
    · rw [hfe] at h; simp at h
    · rw [hfe] at h
      exact tryNums_restore ih (find_empty_cell_some hfe).2.2 _ g' h

theorem tryNums_frame {sz : Nat} {next : Grid → Bool × Grid}
    (hnextF : ∀ g g', next g = (false, g') → g' = g)
    (hnextT : ∀ g g', next g = (true, g') → ExtendsTo g g')
    {g : Grid} {row col : Nat} (hz : cell g row col = 0) :
    ∀ nums g', tryNums sz next g row col nums = (true, g') → ExtendsTo g g' := by
  intro nums
  induction nums with
  | nil =>
    intro g' h
    simp [tryNums] at h
  | cons num rest ih =>
    intro g' h
    rw [show tryNums sz next g row col (num :: rest) =
      (if solver_is_valid sz g row col num then
        match next (setCell g row col num) with
        | (true, g2) => (true, g2)
        | (false, g2) => tryNums sz next (setCell g2 row col 0) row col rest
      else tryNums sz next g row col rest) from rfl] at h
    by_cases hv : solver_is_valid sz g row col num = true
    · rw [if_pos hv] at h
      rcases hres : next (setCell g row col num) with ⟨ok, g2⟩
      rw [hres] at h
      cases ok
      · have hg2 : g2 = setCell g row col num := hnextF _ _ hres
        have hclr : setCell g2 row col 0 = g := by
          rw [hg2, setCell_setCell, setCell_zero_of_cell_zero hz]
        simp only at h
        rw [hclr] at h
        exact ih g' h
      · simp only at h
        obtain ⟨_, h2⟩ := Prod.mk.inj h
        subst h2
        exact extendsTo_trans (extendsTo_setCell num hz) (hnextT _ _ hres)
    · rw [if_neg hv] at h
      exact ih g' h

theorem solveFuel_frame (sz : Nat) :
    ∀ fuel g bres g', solveFuel sz fuel g = (bres, g') → ExtendsTo g g' := by
  intro fuel
  induction fuel with
  | zero =>
    intro g bres g' h
    obtain ⟨_, h2⟩ := Prod.mk.inj h
    exact h2 ▸ extendsTo_refl g
  | succ fuel ih =>
    intro g bres g' h
    rw [show solveFuel sz (fuel + 1) g =
      (match find_empty_cell g with
       | none => (true, g)
       | some (row, col) =>
          tryNums sz (solveFuel sz fuel) g row col (List.range' 1 sz)) from rfl] at h
    rcases hfe : find_empty_cell g with _ | ⟨row, col⟩
    · rw [hfe] at h
      obtain ⟨_, h2⟩ := Prod.mk.inj h
      exact h2 ▸ extendsTo_refl g
    · rw [hfe] at h
      cases bres
      · have := tryNums_restore (fun g1 g2 => solveFuel_restore sz fuel g1 g2)
          (find_empty_cell_some hfe).2.2 _ g' h
        exact this ▸ extendsTo_refl g
      · exact tryNums_frame (fun g1 g2 => solveFuel_restore sz fuel g1 g2)
          (fun g1 g2 hh => ih g1 true g2 hh) (find_empty_cell_some hfe).2.2 _ g' h

theorem tryNums_sound {b : Nat} {next : Grid → Bool × Grid}
    (hnextF : ∀ g g', next g = (false, g') → g' = g)
    (hnextS : ∀ g g', WfGrid b g → Consistent b g → next g = (true, g') →
      WfGrid b g' ∧ Consistent b g' ∧ find_empty_cell g' = none)
    {g : Grid} {row col : Nat} (hwf : WfGrid b g) (hcons : Consistent b g)
    (hrow : row < b * b) (hcol : col < b * b) (hz : cell g row col = 0) :
    ∀ nums, (∀ n ∈ nums, 1 ≤ n ∧ n ≤ b * b) → ∀ g',
      tryNums (b * b) next g row col nums = (true, g') →
      WfGrid b g' ∧ Consistent b g' ∧ find_empty_cell g' = none := by
  intro nums
  induction nums with
  | nil =>
    intro _ g' h
    simp [tryNums] at h
  | cons num rest ih =>
    intro hnums g' h
    rw [show tryNums (b * b) next g row col (num :: rest) =
      (if solver_is_valid (b * b) g row col num then
        match next (setCell g row col num) with
        | (true, g2) => (true, g2)
        | (false, g2) => tryNums (b * b) next (setCell g2 row col 0) row col rest
      else tryNums (b * b) next g row col rest) from rfl] at h
    by_cases hv : solver_is_valid (b * b) g row col num = true
    · rw [if_pos hv] at h
      rcases hres : next (setCell g row col num) with ⟨ok, g2⟩
      rw [hres] at h
      cases ok
      · have hg2 : g2 = setCell g row col num := hnextF _ _ hres
        have hclr : setCell g2 row col 0 = g := by
          rw [hg2, setCell_setCell, setCell_zero_of_cell_zero hz]
        simp only at h
        rw [hclr] at h
        exact ih (fun n hn => hnums n (List.mem_cons_of_mem _ hn)) g' h
      · simp only at h
        obtain ⟨_, h2⟩ := Prod.mk.inj h
        subst h2
        have hvalid := (solver_is_valid_iff b g row col num).mp hv
        have hwf' : WfGrid b (setCell g row col num) :=
          wfGrid_setCell hwf (hnums num (List.mem_cons_self _ _)).2
        have hcons' := consistent_setCell hwf hcons hrow hcol hz hvalid
        exact hnextS _ _ hwf' hcons' hres
    · rw [if_neg hv] at h
      exact ih (fun n hn => hnums n (List.mem_cons_of_mem _ hn)) g' h

theorem solveFuel_sound {b : Nat} :
    ∀ fuel g g', WfGrid b g → Consistent b g →
      solveFuel (b * b) fuel g = (true, g') →
      WfGrid b g' ∧ Consistent b g' ∧ find_empty_cell g' = none := by
  intro fuel
  induction fuel with
  | zero =>
    intro g g' hwf hcons h
    simp [solveFuel] at h
  | succ fuel ih =>
    intro g g' hwf hcons h
    rw [show solveFuel (b * b) (fuel + 1) g =
      (match find_empty_cell g with
       | none => (true, g)
       | some (row, col) =>
          tryNums (b * b) (solveFuel (b * b) fuel) g row col
            (List.range' 1 (b * b))) from rfl] at h
    rcases hfe : find_empty_cell g with _ | ⟨row, col⟩
    · rw [hfe] at h
      obtain ⟨_, h2⟩ := Prod.mk.inj h
      exact h2 ▸ ⟨hwf, hcons, hfe⟩
    · rw [hfe] at h
      obtain ⟨hrl, hcl, hz⟩ := find_empty_cell_some hfe
      have hrow : row < b * b := hwf.1 ▸ hrl
      have hcol : col < b * b := (hwf.2.1 _ (getD_mem g hrl)) ▸ hcl
      refine tryNums_sound (fun g1 g2 => solveFuel_restore (b * b) fuel g1 g2)
        (fun g1 g2 hw hc hh => ih g1 g2 hw hc hh) hwf hcons hrow hcol hz _
        ?_ g' h
      intro n hn
      rw [List.mem_range'_1] at hn
      omega

/-! ## A full consistent grid is solved (pigeonhole per unit) -/

theorem count_one_of_nodup_of_card (l : List Nat) (n : Nat) (hlen : l.length = n)
    (hnodup : l.Nodup) (hmem : ∀ x ∈ l, 1 ≤ x ∧ x ≤ n) :
    ∀ v, 1 ≤ v → v ≤ n → l.count v = 1 := by
  have hsub : l.toFinset ⊆ Finset.Icc 1 n := by
    intro x hx
    rw [List.mem_toFinset] at hx
    rw [Finset.mem_Icc]
    exact hmem x hx
  have hcard : (Finset.Icc 1 n).card ≤ l.toFinset.card := by
    rw [List.toFinset_card_of_nodup hnodup, hlen, Nat.card_Icc]
    omega
  have heq := Finset.eq_of_subset_of_card_le hsub hcard
  intro v h1 h2
  have hv : v ∈ l := by
    rw [← List.mem_toFinset, heq, Finset.mem_Icc]
    exact ⟨h1, h2⟩
  exact List.count_eq_one_of_mem hnodup hv

theorem box_pos_lt {b bi s : Nat} (hbi : bi < b) (hs : s < b) :
    bi * b + s < b * b :=
  calc bi * b + s < bi * b + b := by omega
    _ = (bi + 1) * b := by ring
    _ ≤ b * b := Nat.mul_le_mul_right b hbi

theorem box_div {b bi s : Nat} (hb : 0 < b) (hs : s < b) :
    (bi * b + s) / b = bi := by
  rw [Nat.add_comm, Nat.mul_comm, Nat.add_mul_div_left _ _ hb,
    Nat.div_eq_of_lt hs, Nat.zero_add]

theorem box_mod {b bi s : Nat} (hs : s < b) : (bi * b + s) % b = s := by
  rw [Nat.add_comm, Nat.mul_comm, Nat.add_mul_mod_self_left,
    Nat.mod_eq_of_lt hs]

theorem solved_of_full {b : Nat} {g : Grid} (hwf : WfGrid b g)
    (hcons : Consistent b g) (hfull : NoZeroCells b g) : Solved b g := by
  obtain ⟨hrows, hcols, hboxes⟩ := hcons
  refine ⟨?_, ?_, ?_⟩
  · intro r hr v hv2 hv1
    refine count_one_of_nodup_of_card (rowOf g b r) (b * b) (by simp [rowOf])
      ?_ ?_ v hv1 hv2
    · refine List.Nodup.map_on ?_ (List.nodup_range _)
      intro i hi j hj hij
      rw [List.mem_range] at hi hj
      by_contra hne
      exact hrows r hr i hi j hj hne (hfull r hr i hi) hij
    · intro x hx
      simp only [rowOf, List.mem_map, List.mem_range] at hx
      obtain ⟨i, hi, hxe⟩ := hx
      exact hxe ▸ ⟨Nat.one_le_iff_ne_zero.mpr (hfull r hr i hi),
        cell_le_of_wf hwf r i⟩
  · intro c hc v hv2 hv1
    refine count_one_of_nodup_of_card (colOf g b c) (b * b) (by simp [colOf])
      ?_ ?_ v hv1 hv2
    · refine List.Nodup.map_on ?_ (List.nodup_range _)
      intro i hi j hj hij
      rw [List.mem_range] at hi hj
      by_contra hne
      exact hcols c hc i hi j hj hne (hfull i hi c hc) hij
    · intro x hx
      simp only [colOf, List.mem_map, List.mem_range] at hx
      obtain ⟨i, hi, hxe⟩ := hx
      exact hxe ▸ ⟨Nat.one_le_iff_ne_zero.mpr (hfull i hi c hc),
        cell_le_of_wf hwf i c⟩
  · intro bi hbi bj hbj v hv2 hv1
    have hb : 0 < b := by omega
    refine count_one_of_nodup_of_card (boxOf g b bi bj) (b * b)
      (by simp [boxOf]) ?_ ?_ v hv1 hv2
    · refine List.Nodup.map_on ?_ (List.nodup_range _)
      intro t ht t' ht' heq
      rw [List.mem_range] at ht ht'
      have hdt : t / b < b := Nat.div_lt_iff_lt_mul hb |>.mpr ht
      have hdt' : t' / b < b := Nat.div_lt_iff_lt_mul hb |>.mpr ht'
      have hmt : t % b < b := Nat.mod_lt _ hb
      have hmt' : t' % b < b := Nat.mod_lt _ hb
      by_contra hne
      have hp : (bi * b + t / b, bj * b + t % b) ≠
          (bi * b + t' / b, bj * b + t' % b) := by
        intro he
        obtain ⟨h1, h2⟩ := Prod.mk.inj he
        have e1 : t / b = t' / b := Nat.add_left_cancel h1
        have e2 : t % b = t' % b := Nat.add_left_cancel h2
        have d1 := Nat.div_add_mod t b
        have d2 := Nat.div_add_mod t' b
        rw [e1, e2] at d1
        exact hne (by omega)
      exact hboxes (bi * b + t / b) (box_pos_lt hbi hdt)
        (bj * b + t % b) (box_pos_lt hbj hmt)
        (bi * b + t' / b) (box_pos_lt hbi hdt')
        (bj * b + t' % b) (box_pos_lt hbj hmt')
        (by rw [box_div hb hdt, box_div hb hdt'])
        (by rw [box_div hb hmt, box_div hb hmt'])
        hp
        (hfull _ (box_pos_lt hbi hdt) _ (box_pos_lt hbj hmt))
        heq
    · intro x hx
      simp only [boxOf, List.mem_map, List.mem_range] at hx
      obtain ⟨t, ht, hxe⟩ := hx
      have hdt : t / b < b := Nat.div_lt_iff_lt_mul hb |>.mpr ht
      have hmt : t % b < b := Nat.mod_lt _ hb
      exact hxe ▸ ⟨Nat.one_le_iff_ne_zero.mpr
        (hfull _ (box_pos_lt hbi hdt) _ (box_pos_lt hbj hmt)),
        cell_le_of_wf hwf _ _⟩

/-! ## The generator fill: restoration and soundness -/

theorem fillTry_restore {sz : Nat} {next : Grid → Nat → Bool × Grid × Nat}
    (hnext : ∀ g k g' k', next g k = (false, g', k') → g' = g)
    {g : Grid} {row col : Nat} (hz : cell g row col = 0) :
    ∀ nums k g' k', fillTry sz next g row col nums k = (false, g', k') → g' = g := by
  intro nums
  induction nums with
  | nil =>
    intro k g' k' h
    simp only [fillTry] at h
    exact (Prod.mk.inj (Prod.mk.inj h).2).1.symm
  | cons num rest ih =>
    intro k g' k' h
    rw [show fillTry sz next g row col (num :: rest) k =
      (if grid_is_valid sz g row col num then
        match next (setCell g row col num) k with
        | (true, g2, k2) => (true, g2, k2)
        | (false, g2, k2) => fillTry sz next (setCell g2 row col 0) row col rest k2
      else fillTry sz next g row col rest k) from rfl] at h
    by_cases hv : grid_is_valid sz g row col num = true
    · rw [if_pos hv] at h
      rcases hres : next (setCell g row col num) k with ⟨ok, g2, k2⟩
      rw [hres] at h
      cases ok
      · have hg2 : g2 = setCell g row col num := hnext _ _ _ _ hres
        have hclr : setCell g2 row col 0 = g := by
          rw [hg2, setCell_setCell, setCell_zero_of_cell_zero hz]
        simp only at h
        rw [hclr] at h
        exact ih k2 g' k' h
      · simp at h
    · rw [if_neg hv] at h
      exact ih k g' k' h

theorem fillFuel_restore (sz : Nat) (oracle : Nat → List Nat) :
    ∀ fuel g k g' k', fillFuel sz oracle fuel g k = (false, g', k') → g' = g := by
  intro fuel
  induction fuel with
  | zero =>
    intro g k g' k' h
    simp only [fillFuel] at h
    exact (Prod.mk.inj (Prod.mk.inj h).2).1.symm
  | succ fuel ih =>
    intro g k g' k' h
    rw [show fillFuel sz oracle (fuel + 1) g k =
      (match find_empty_cell g with
       | none => (true, g, k)
       | some (row, col) =>
          fillTry sz (fillFuel sz oracle fuel) g row col (oracle k) (k + 1))
      from rfl] at h
    rcases hfe : find_empty_cell g with _ | ⟨row, col⟩
    · rw [hfe] at h; simp at h
    · rw [hfe] at h
      exact fillTry_restore (fun g1 k1 g2 k2 => ih g1 k1 g2 k2)
        (find_empty_cell_some hfe).2.2 _ _ g' k' h

theorem fillTry_sound {b : Nat} {next : Grid → Nat → Bool × Grid × Nat}
    (hnextF : ∀ g k g' k', next g k = (false, g', k') → g' = g)
    (hnextS : ∀ g k g' k', WfGrid b g → Consistent b g →
      next g k = (true, g', k') →
      WfGrid b g' ∧ Consistent b g' ∧ find_empty_cell g' = none)
    {g : Grid} {row col : Nat} (hwf : WfGrid b g) (hcons : Consistent b g)
    (hrow : row < b * b) (hcol : col < b * b) (hz : cell g row col = 0) :
    ∀ nums, (∀ n ∈ nums, 1 ≤ n ∧ n ≤ b * b) → ∀ k g' k',
      fillTry (b * b) next g row col nums k = (true, g', k') →
      WfGrid b g' ∧ Consistent b g' ∧ find_empty_cell g' = none := by
  intro nums
  induction nums with
  | nil =>
    intro _ k g' k' h
    simp [fillTry] at h
  | cons num rest ih =>
    intro hnums k g' k' h
    rw [show fillTry (b * b) next g row col (num :: rest) k =
      (if grid_is_valid (b * b) g row col num then
        match next (setCell g row col num) k with
        | (true, g2, k2) => (true, g2, k2)
        | (false, g2, k2) =>
            fillTry (b * b) next (setCell g2 row col 0) row col rest k2
      else fillTry (b * b) next g row col rest k) from rfl] at h
    by_cases hv : grid_is_valid (b * b) g row col num = true
    · rw [if_pos hv] at h
      rcases hres : next (setCell g row col num) k with ⟨ok, g2, k2⟩
      rw [hres] at h
      cases ok
      · have hg2 : g2 = setCell g row col num := hnextF _ _ _ _ hres
        have hclr : setCell g2 row col 0 = g := by
          rw [hg2, setCell_setCell, setCell_zero_of_cell_zero hz]
        simp only at h
        rw [hclr] at h
        exact ih (fun n hn => hnums n (List.mem_cons_of_mem _ hn)) k2 g' k' h
      · simp only at h
        obtain ⟨_, h2⟩ := Prod.mk.inj h
        obtain ⟨h2, _⟩ := Prod.mk.inj h2
        subst h2
        have hvalid := (grid_is_valid_iff hwf hrow col num).mp hv
        have hwf' : WfGrid b (setCell g row col num) :=
          wfGrid_setCell hwf (hnums num (List.mem_cons_self _ _)).2
        have hcons' := consistent_setCell hwf hcons hrow hcol hz hvalid
        exact hnextS _ _ _ _ hwf' hcons' hres
    · rw [if_neg hv] at h
      exact ih (fun n hn => hnums n (List.mem_cons_of_mem _ hn)) k g' k' h

theorem fillFuel_sound {b : Nat} (oracle : Nat → List Nat)
    (horacle : ∀ k, ∀ n ∈ oracle k, 1 ≤ n ∧ n ≤ b * b) :
    ∀ fuel g k g' k', WfGrid b g → Consistent b g →
      fillFuel (b * b) oracle fuel g k = (true, g', k') →
      WfGrid b g' ∧ Consistent b g' ∧ find_empty_cell g' = none := by
  intro fuel
  induction fuel with
  | zero =>
    intro g k g' k' hwf hcons h
    simp [fillFuel] at h
  | succ fuel ih =>
    intro g k g' k' hwf hcons h
    rw [show fillFuel (b * b) oracle (fuel + 1) g k =
      (match find_empty_cell g with
       | none => (true, g, k)
       | some (row, col) =>
          fillTry (b * b) (fillFuel (b * b) oracle fuel) g row col
            (oracle k) (k + 1)) from rfl] at h
    rcases hfe : find_empty_cell g with _ | ⟨row, col⟩
    · rw [hfe] at h
      obtain ⟨_, h2⟩ := Prod.mk.inj h
      obtain ⟨h2, _⟩ := Prod.mk.inj h2
      exact h2 ▸ ⟨hwf, hcons, hfe⟩
    · rw [hfe] at h
      obtain ⟨hrl, hcl, hz⟩ := find_empty_cell_some hfe
      have hrow : row < b * b := hwf.1 ▸ hrl
      have hcol : col < b * b := (hwf.2.1 _ (getD_mem g hrl)) ▸ hcl
      exact fillTry_sound (fun g1 k1 g2 k2 => fillFuel_restore (b * b) oracle fuel g1 k1 g2 k2)
        (fun g1 k1 g2 k2 hw hc hh => ih g1 k1 g2 k2 hw hc hh)
        hwf hcons hrow hcol hz _ (horacle k) _ g' k' h

/-! ## The generator fill: completeness -/

theorem completes_head {b : Nat} {g s : Grid} {row col : Nat}
    (hwf : WfGrid b g) (hrow : row < b * b) (hcol : col < b * b)
    (hz : cell g row col = 0) (hc : Completes b g s) :
    1 ≤ cell s row col ∧ cell s row col ≤ b * b ∧
      ValidAt b g row col (cell s row col) ∧
      Completes b (setCell g row col (cell s row col)) s := by
  obtain ⟨hswf, hscons, hsfull, hsext⟩ := hc
  have hb : 0 < b := pos_b_of_lt hrow
  have hrl : row < g.length := hwf.1 ▸ hrow
  have hcl : col < (g.getD row []).length := (hwf.2.1 _ (getD_mem g hrl)) ▸ hcol
  have hv1 : cell s row col ≠ 0 := hsfull row hrow col hcol
  refine ⟨Nat.one_le_iff_ne_zero.mpr hv1, cell_le_of_wf hswf row col, ⟨?_, ?_, ?_⟩, ?_⟩
  · intro c hcb heq
    have hnz : cell g row c ≠ 0 := by rw [heq]; exact hv1
    have hcne : c ≠ col := by
      intro he
      rw [he, hz] at heq
      exact hv1 heq.symm
    exact hscons.1 row hrow c hcb col hcol hcne
      (by rw [hsext row c hnz, heq]; exact hv1)
      (by rw [hsext row c hnz, heq])
  · intro r hrb heq
    have hnz : cell g r col ≠ 0 := by rw [heq]; exact hv1
    have hrne : r ≠ row := by
      intro he
      rw [he, hz] at heq
      exact hv1 heq.symm
    exact hscons.2.1 col hcol r hrb row hrow hrne
      (by rw [hsext r col hnz, heq]; exact hv1)
      (by rw [hsext r col hnz, heq])
  · intro i hi j hj heq
    have hrb : row / b < b := (Nat.div_lt_iff_lt_mul hb).mpr hrow
    have hcb : col / b < b := (Nat.div_lt_iff_lt_mul hb).mpr hcol
    have hrrlt : row / b * b + i < b * b := box_pos_lt hrb hi
    have hcclt : col / b * b + j < b * b := box_pos_lt hcb hj
    have hnz : cell g (row / b * b + i) (col / b * b + j) ≠ 0 := by
      rw [heq]; exact hv1
    have hpne : (row / b * b + i, col / b * b + j) ≠ (row, col) := by
      intro he
      obtain ⟨e1, e2⟩ := Prod.mk.inj he
      rw [e1, e2, hz] at heq
      exact hv1 heq.symm
    exact hscons.2.2 (row / b * b + i) hrrlt (col / b * b + j) hcclt
      row hrow col hcol
      (by rw [box_div hb hi])
      (by rw [box_div hb hj])
      hpne
      (by rw [hsext _ _ hnz, heq]; exact hv1)
      (by rw [hsext _ _ hnz, heq])
  · refine ⟨hswf, hscons, hsfull, ?_⟩
    intro r c hnz
    by_cases he : (r, c) = (row, col)
    · obtain ⟨e1, e2⟩ := Prod.mk.inj he
      subst e1; subst e2
      rw [cell_setCell_self g _ hrl hcl]
    · rw [cell_setCell_ne g _ he] at hnz ⊢
      exact hsext r c hnz

theorem fillTry_complete {b fuel : Nat} {next : Grid → Nat → Bool × Grid × Nat}
    (hnextF : ∀ g k g' k', next g k = (false, g', k') → g' = g)
    (hnextC : ∀ g2 k2, countZeros g2 < fuel → WfGrid b g2 → Consistent b g2 →
      (∃ s, Completes b g2 s) → (next g2 k2).1 = true)
    {g : Grid} {row col : Nat} (hwf : WfGrid b g) (hcons : Consistent b g)
    (hrow : row < b * b) (hcol : col < b * b) (hz : cell g row col = 0)
    (hcnt : countZeros g ≤ fuel) :
    ∀ nums k, (∃ s, Completes b g s ∧ cell s row col ∈ nums) →
      (fillTry (b * b) next g row col nums k).1 = true := by
  have hrl : row < g.length := hwf.1 ▸ hrow
  have hcl : col < (g.getD row []).length := (hwf.2.1 _ (getD_mem g hrl)) ▸ hcol
  intro nums
  induction nums with
  | nil =>
    rintro k ⟨s, _, hmem⟩
    simp at hmem
  | cons num rest ih =>
    rintro k ⟨s, hcomp, hmem⟩
    obtain ⟨hs1, hs2, hsvalid, hscomp⟩ := completes_head hwf hrow hcol hz hcomp
    rw [show fillTry (b * b) next g row col (num :: rest) k =
      (if grid_is_valid (b * b) g row col num then
        match next (setCell g row col num) k with
        | (true, g2, k2) => (true, g2, k2)
        | (false, g2, k2) =>
            fillTry (b * b) next (setCell g2 row col 0) row col rest k2
      else fillTry (b * b) next g row col rest k) from rfl]
    by_cases hv : grid_is_valid (b * b) g row col num = true
    · rw [if_pos hv]
      rcases hres : next (setCell g row col num) k with ⟨ok, g2, k2⟩
      cases ok
      · by_cases hnum : num = cell s row col
        · exfalso
          have hzlt : countZeros (setCell g row col num) < fuel := by
            have := countZeros_setCell_fill hrl hcl hz
              (show num ≠ 0 by rw [hnum]; exact Nat.one_le_iff_ne_zero.mp hs1)
            omega
          have hwf' : WfGrid b (setCell g row col num) :=
            wfGrid_setCell hwf (show num ≤ b * b by rw [hnum]; exact hs2)
          have hcons' : Consistent b (setCell g row col num) :=
            consistent_setCell hwf hcons hrow hcol hz
              (show ValidAt b g row col num by rw [hnum]; exact hsvalid)
          have hex2 : ∃ s2, Completes b (setCell g row col num) s2 :=
            ⟨s, by rw [hnum]; exact hscomp⟩
          have := hnextC _ k hzlt hwf' hcons' hex2
          rw [hres] at this
          simp at this
        · have hg2 : g2 = setCell g row col num := hnextF _ _ _ _ hres
          have hclr : setCell g2 row col 0 = g := by
            rw [hg2, setCell_setCell, setCell_zero_of_cell_zero hz]
          simp only
          rw [hclr]
          refine ih k2 ⟨s, hcomp, ?_⟩
          rcases List.mem_cons.mp hmem with he | hm
          · exact absurd he.symm hnum
          · exact hm
      · simp
    · rw [if_neg hv]
      have hnum : num ≠ cell s row col := by
        intro he
        rw [he] at hv
        exact hv ((grid_is_valid_iff hwf hrow col _).mpr hsvalid)
      refine ih k ⟨s, hcomp, ?_⟩
      rcases List.mem_cons.mp hmem with he | hm
      · exact absurd he.symm hnum
      · exact hm

theorem fillFuel_complete {b : Nat} (oracle : Nat → List Nat)
    (horacle : ∀ k, (oracle k).Perm (List.range' 1 (b * b))) :
    ∀ fuel g k, countZeros g < fuel → WfGrid b g → Consistent b g →
      (∃ s, Completes b g s) → (fillFuel (b * b) oracle fuel g k).1 = true := by
  intro fuel
  induction fuel with
  | zero =>
    intro g k hcnt
    omega
  | succ fuel ih =>
    intro g k hcnt hwf hcons hex
    rw [show fillFuel (b * b) oracle (fuel + 1) g k =
      (match find_empty_cell g with
       | none => (true, g, k)
       | some (row, col) =>
          fillTry (b * b) (fillFuel (b * b) oracle fuel) g row col
            (oracle k) (k + 1)) from rfl]
    rcases hfe : find_empty_cell g with _ | ⟨row, col⟩
    · simp
    · obtain ⟨hrl, hcl, hz⟩ := find_empty_cell_some hfe
      have hrow : row < b * b := hwf.1 ▸ hrl
      have hcol : col < b * b := (hwf.2.1 _ (getD_mem g hrl)) ▸ hcl
      obtain ⟨s, hcomp⟩ := hex
      refine fillTry_complete
        (fun g1 k1 g2 k2 => fillFuel_restore (b * b) oracle fuel g1 k1 g2 k2)
        (fun g2 k2 hc2 hw2 hcs2 he2 => ih g2 k2 hc2 hw2 hcs2 he2)
        hwf hcons hrow hcol hz (by omega) _ (k + 1) ⟨s, hcomp, ?_⟩
      obtain ⟨h1, h2, _, _⟩ := completes_head hwf hrow hcol hz hcomp
      rw [(horacle k).mem_iff, List.mem_range'_1]
      omega

/-! ## A concrete valid completion of the empty grid -/

theorem cell_formulaGrid {b r c : Nat} (hr : r < b * b) (hc : c < b * b) :
    cell (formulaGrid b) r c = (b * (r % b) + r / b + c) % (b * b) + 1 := by
  unfold cell formulaGrid
  rw [List.getD_eq_getElem _ [] (by simpa using hr)]
  simp only [List.getElem_map, List.getElem_range]
  rw [List.getD_eq_getElem _ 0 (by simpa using hc)]
  simp only [List.getElem_map, List.getElem_range]

theorem wfGrid_formulaGrid (b : Nat) : WfGrid b (formulaGrid b) := by
  refine ⟨by simp [formulaGrid], ?_, ?_⟩
  · intro row hrow
    simp only [formulaGrid, List.mem_map, List.mem_range] at hrow
    obtain ⟨r, hr, hrow⟩ := hrow
    rw [← hrow]
    simp
  · intro row hrow x hx
    simp only [formulaGrid, List.mem_map, List.mem_range] at hrow
    obtain ⟨r, hr, hrow⟩ := hrow
    rw [← hrow] at hx
    simp only [List.mem_map, List.mem_range] at hx
    obtain ⟨c, hcb, hxe⟩ := hx
    have hn : 0 < b * b := by omega
    have := Nat.mod_lt (b * (r % b) + r / b + c) hn
    omega

theorem noZeroCells_formulaGrid (b : Nat) : NoZeroCells b (formulaGrid b) := by
  intro r hr c hc
  rw [cell_formulaGrid hr hc]
  omega

theorem lt_of_digits {b x y : Nat} (hx : x < b) (hy : y < b) :
    b * x + y < b * b :=
  calc b * x + y < b * x + b := by omega
    _ = b * (x + 1) := by ring
    _ ≤ b * b := Nat.mul_le_mul_left b hx

theorem digits_eq {b x y x' y' : Nat} (hb : 0 < b) (hy : y < b) (hy' : y' < b)
    (h : b * x + y = b * x' + y') : x = x' ∧ y = y' := by
  have e1 : (b * x + y) / b = x := by
    rw [Nat.mul_add_div hb, Nat.div_eq_of_lt hy, Nat.add_zero]
  have e2 : (b * x' + y') / b = x' := by
    rw [Nat.mul_add_div hb, Nat.div_eq_of_lt hy', Nat.add_zero]
  have e3 : (b * x + y) % b = y := by
    rw [Nat.mul_add_mod, Nat.mod_eq_of_lt hy]
  have e4 : (b * x' + y') % b = y' := by
    rw [Nat.mul_add_mod, Nat.mod_eq_of_lt hy']
  constructor
  · rw [← e1, ← e2, h]
  · rw [← e3, ← e4, h]

theorem consistent_formulaGrid (b : Nat) : Consistent b (formulaGrid b) := by
  refine ⟨?_, ?_, ?_⟩
  · intro r hr c hc c' hc' hcc _ heq
    have hb : 0 < b := pos_b_of_lt hr
    rw [cell_formulaGrid hr hc, cell_formulaGrid hr hc'] at heq
    have heqm : Nat.ModEq (b * b) (b * (r % b) + r / b + c)
        (b * (r % b) + r / b + c') := by
      have := Nat.add_right_cancel heq
      exact this
    have hcm : Nat.ModEq (b * b) c c' :=
      Nat.ModEq.add_left_cancel' (b * (r % b) + r / b) heqm
    have : c % (b * b) = c' % (b * b) := hcm
    rw [Nat.mod_eq_of_lt hc, Nat.mod_eq_of_lt hc'] at this
    exact hcc this
  · intro c hc r hr r' hr' hrr _ heq
    have hb : 0 < b := pos_b_of_lt hc
    rw [cell_formulaGrid hr hc, cell_formulaGrid hr' hc] at heq
    have heqm : Nat.ModEq (b * b) (b * (r % b) + r / b + c)
        (b * (r' % b) + r' / b + c) := by
      have := Nat.add_right_cancel heq
      exact this
    have hom : Nat.ModEq (b * b) (b * (r % b) + r / b) (b * (r' % b) + r' / b) :=
      Nat.ModEq.add_right_cancel' c heqm
    have hlt : b * (r % b) + r / b < b * b :=
      lt_of_digits (Nat.mod_lt _ hb) ((Nat.div_lt_iff_lt_mul hb).mpr hr)
    have hlt' : b * (r' % b) + r' / b < b * b :=
      lt_of_digits (Nat.mod_lt _ hb) ((Nat.div_lt_iff_lt_mul hb).mpr hr')
    have hoeq : b * (r % b) + r / b = b * (r' % b) + r' / b := by
      have h' : (b * (r % b) + r / b) % (b * b) =
          (b * (r' % b) + r' / b) % (b * b) := hom
      rwa [Nat.mod_eq_of_lt hlt, Nat.mod_eq_of_lt hlt'] at h'
    obtain ⟨d1, d2⟩ := digits_eq hb ((Nat.div_lt_iff_lt_mul hb).mpr hr)
      ((Nat.div_lt_iff_lt_mul hb).mpr hr') hoeq
    have hd1 := Nat.div_add_mod r b
    have hd2 := Nat.div_add_mod r' b
    rw [d1, d2] at hd1
    exact hrr (by omega)
  · intro r hr c hc r' hr' c' hc' hbr hbc hpair _ heq
    have hb : 0 < b := pos_b_of_lt hr
    rw [cell_formulaGrid hr hc, cell_formulaGrid hr' hc'] at heq
    have heqm : Nat.ModEq (b * b) (b * (r % b) + r / b + c)
        (b * (r' % b) + r' / b + c') := by
      have := Nat.add_right_cancel heq
      exact this
    have hA : b * (r % b) + r / b + c =
        (b * (r % b) + c % b) + (r / b + b * (c / b)) := by
      have := Nat.div_add_mod c b
      omega
    have hA' : b * (r' % b) + r' / b + c' =
        (b * (r' % b) + c' % b) + (r / b + b * (c / b)) := by
      rw [hbr, hbc]
      have := Nat.div_add_mod c' b
      omega
    rw [hA, hA'] at heqm
    have hsm : Nat.ModEq (b * b) (b * (r % b) + c % b) (b * (r' % b) + c' % b) :=
      Nat.ModEq.add_right_cancel' _ heqm
    have hlt : b * (r % b) + c % b < b * b :=
      lt_of_digits (Nat.mod_lt _ hb) (Nat.mod_lt _ hb)
    have hlt' : b * (r' % b) + c' % b < b * b :=
      lt_of_digits (Nat.mod_lt _ hb) (Nat.mod_lt _ hb)
    have hseq : b * (r % b) + c % b = b * (r' % b) + c' % b := by
      have h' : (b * (r % b) + c % b) % (b * b) =
          (b * (r' % b) + c' % b) % (b * b) := hsm
      rwa [Nat.mod_eq_of_lt hlt, Nat.mod_eq_of_lt hlt'] at h'
    obtain ⟨d1, d2⟩ := digits_eq hb (Nat.mod_lt _ hb) (Nat.mod_lt _ hb) hseq
    have hd1 := Nat.div_add_mod r b
    have hd2 := Nat.div_add_mod r' b
    have hd3 := Nat.div_add_mod c b
    have hd4 := Nat.div_add_mod c' b
    apply hpair
    have er : r = r' := by
      have e : b * (r / b) = b * (r' / b) := congrArg (fun x => b * x) hbr
      rw [d1] at hd1
      omega
    have ec : c = c' := by
      have e : b * (c / b) = b * (c' / b) := congrArg (fun x => b * x) hbc
      rw [d2] at hd3
      omega
    rw [er, ec]

theorem cell_replicate_zero (n r c : Nat) :
    cell (List.replicate n (List.replicate n 0)) r c = 0 := by
  unfold cell
  rcases Nat.lt_or_ge r n with hr | hr
  · rw [List.getD_eq_getElem _ [] (by simpa using hr), List.getElem_replicate]
    rcases Nat.lt_or_ge c n with hc | hc
    · rw [List.getD_eq_getElem _ 0 (by simpa using hc), List.getElem_replicate]
    · rw [List.getD_eq_default _ 0 (by simpa using hc)]
  · rw [List.getD_eq_default _ [] (by simpa using hr)]
    simp

theorem completes_empty_formulaGrid (b : Nat) :
    Completes b (List.replicate (b * b) (List.replicate (b * b) 0))
      (formulaGrid b) := by
  refine ⟨wfGrid_formulaGrid b, consistent_formulaGrid b,
    noZeroCells_formulaGrid b, ?_⟩
  intro r c hnz
  rw [cell_replicate_zero] at hnz
  exact absurd rfl hnz

theorem wfGrid_empty (b : Nat) :
    WfGrid b (List.replicate (b * b) (List.replicate (b * b) 0)) := by
  refine ⟨by simp, ?_, ?_⟩
  · intro row hrow
    rw [List.eq_of_mem_replicate hrow]
    simp
  · intro row hrow x hx
    rw [List.eq_of_mem_replicate hrow] at hx
    rw [List.eq_of_mem_replicate hx]
    exact Nat.zero_le _

theorem consistent_empty (b : Nat) :
    Consistent b (List.replicate (b * b) (List.replicate (b * b) 0)) := by
  refine ⟨?_, ?_, ?_⟩
  · intro r _ c _ c' _ _ hnz
    rw [cell_replicate_zero] at hnz
    exact absurd rfl hnz
  · intro c _ r _ r' _ _ hnz
    rw [cell_replicate_zero] at hnz
    exact absurd rfl hnz
  · intro r _ c _ r' _ c' _ _ _ _ hnz
    rw [cell_replicate_zero] at hnz
    exact absurd rfl hnz

/-! ## Cell removal: exact count of blanked cells -/

theorem countZeros_removeList :
    ∀ (ps : List (Nat × Nat)) (g : Grid), ps.Nodup →
      (∀ p ∈ ps, p.1 < g.length ∧ p.2 < (g.getD p.1 []).length ∧
        cell g p.1 p.2 ≠ 0) →
      countZeros (ps.foldl (fun acc p => setCell acc p.1 p.2 0) g) =
        countZeros g + ps.length := by
  intro ps
  induction ps with
  | nil => intro g _ _; simp
  | cons p ps ih =>
    intro g hnodup hbounds
    obtain ⟨hp1, hp2, hpnz⟩ := hbounds p (List.mem_cons_self _ _)
    have hstep : countZeros (setCell g p.1 p.2 0) = countZeros g + 1 :=
      countZeros_setCell_clear hp1 hp2 hpnz
    have hrest : ∀ q ∈ ps, q.1 < (setCell g p.1 p.2 0).length ∧
        q.2 < ((setCell g p.1 p.2 0).getD q.1 []).length ∧
        cell (setCell g p.1 p.2 0) q.1 q.2 ≠ 0 := by
      intro q hq
      obtain ⟨hq1, hq2, hqnz⟩ := hbounds q (List.mem_cons_of_mem _ hq)
      have hqp : q ≠ p := by
        intro he
        exact (List.nodup_cons.mp hnodup).1 (he ▸ hq)
      refine ⟨by rw [length_setCell]; exact hq1,
        by rw [rowlen_setCell]; exact hq2, ?_⟩
      rw [show cell (setCell g p.1 p.2 0) q.1 q.2 = cell g q.1 q.2 from
        cell_setCell_ne g 0 (by
          intro he
          exact hqp (Prod.ext (Prod.mk.inj he).1 (Prod.mk.inj he).2))]
      exact hqnz
    rw [List.foldl_cons, ih _ (List.nodup_cons.mp hnodup).2 hrest, hstep]
    simp [Nat.add_assoc, Nat.add_comm 1 _]

theorem mem_allCoords {sz : Nat} {p : Nat × Nat} :
    p ∈ allCoords sz ↔ p.1 < sz ∧ p.2 < sz := by
  unfold allCoords
  rw [List.mem_flatMap]
  constructor
  · rintro ⟨i, hi, hp⟩
    rw [List.mem_map] at hp
    obtain ⟨j, hj, hp⟩ := hp
    rw [List.mem_range] at hi hj
    rw [← hp]
    exact ⟨hi, hj⟩
  · rintro ⟨h1, h2⟩
    exact ⟨p.1, List.mem_range.mpr h1,
      List.mem_map.mpr ⟨p.2, List.mem_range.mpr h2, rfl⟩⟩

theorem nodup_allCoords (sz : Nat) : (allCoords sz).Nodup := by
  unfold allCoords
  rw [List.nodup_flatMap]
  constructor
  · intro i _
    exact List.Nodup.map (fun j j' h => (Prod.mk.inj h).2) (List.nodup_range _)
  · refine List.Pairwise.imp ?_ (List.pairwise_lt_range sz)
    intro i j hij
    intro q hq1 hq2
    rw [List.mem_map] at hq1 hq2
    obtain ⟨c1, _, he1⟩ := hq1
    obtain ⟨c2, _, he2⟩ := hq2
    have : i = j := by
      have e1 := (Prod.mk.inj he1).1
      have e2 := (Prod.mk.inj he2).1
      rw [← he2] at he1
      exact (Prod.mk.inj he1).1
    omega

theorem length_allCoords (sz : Nat) : (allCoords sz).length = sz * sz := by
  unfold allCoords
  rw [List.length_flatMap]
  simp [Function.comp_def, List.map_const', List.sum_replicate]

theorem countZeros_eq_zero_of_no_zeros (g : Grid)
    (h : ∀ row ∈ g, ∀ x ∈ row, x ≠ 0) : countZeros g = 0 := by
  induction g with
  | nil => rfl
  | cons row rest ih =>
    show row.count 0 + countZeros rest = 0
    rw [List.count_eq_zero.mpr (fun hm => h row (List.mem_cons_self _ _) 0 hm rfl),
      ih (fun r hr x hx => h r (List.mem_cons_of_mem _ hr) x hx)]

theorem countZeros_eq_zero_of_full {b : Nat} {g : Grid} (hwf : WfGrid b g)
    (hfull : NoZeroCells b g) : countZeros g = 0 := by
  apply countZeros_eq_zero_of_no_zeros
  intro row hrow x hx hxz
  obtain ⟨r, hr, hgr⟩ := List.getElem_of_mem hrow
  obtain ⟨c, hc, hrc⟩ := List.getElem_of_mem hx
  have hcell : cell g r c = x := by
    unfold cell
    rw [List.getD_eq_getElem g [] hr, hgr, List.getD_eq_getElem _ 0 hc, hrc]
  exact hfull r (hwf.1 ▸ hr) c ((hwf.2.1 _ hrow) ▸ (hgr ▸ hc)) (hxz ▸ hcell)

/-! ## Encoding round trip -/

theorem value_char_roundtrip :
    ∀ v, v ≤ 35 → (value_to_char v).bind char_to_value = Except.ok v := by
  decide

theorem row_roundtrip (l : List Nat) (h : ∀ v ∈ l, v ≤ 35) :
    ∃ cs, l.mapM value_to_char = Except.ok cs ∧
      cs.mapM char_to_value = Except.ok l := by
  induction l with
  | nil => exact ⟨[], rfl, rfl⟩
  | cons v l ih =>
    obtain ⟨cs, he, hd⟩ := ih (fun x hx => h x (List.mem_cons_of_mem _ hx))
    have hv := value_char_roundtrip v (h v (List.mem_cons_self _ _))
    rcases hc : value_to_char v with e | c
    · rw [hc] at hv
      simp [Except.bind] at hv
    · rw [hc] at hv
      have hcv : char_to_value c = Except.ok v := hv
      refine ⟨c :: cs, ?_, ?_⟩
      · rw [List.mapM_cons, hc, he]
        rfl
      · rw [List.mapM_cons, hcv, hd]
        rfl

theorem grid_roundtrip (g : Grid) (h : ∀ row ∈ g, ∀ v ∈ row, v ≤ 35) :
    ∃ ls, encodeGrid g = Except.ok ls ∧ decodeGrid ls = Except.ok g := by
  induction g with
  | nil => exact ⟨[], rfl, rfl⟩
  | cons row rest ih =>
    obtain ⟨ls, he, hd⟩ := ih (fun r hr => h r (List.mem_cons_of_mem _ hr))
    obtain ⟨cs, hrow, hrowd⟩ := row_roundtrip row (h row (List.mem_cons_self _ _))
    refine ⟨cs :: ls, ?_, ?_⟩
    · unfold encodeGrid at he ⊢
      rw [List.mapM_cons, hrow, he]
      rfl
    · unfold decodeGrid at hd ⊢
      rw [List.mapM_cons, hrowd, hd]
      rfl

/-! ## Auxiliary count lemmas for duplicate detection -/

theorem mem_of_getD {l : List Nat} {n v : Nat} (hn : n < l.length)
    (h : l.getD n 0 = v) : v ∈ l := by
  rw [List.getD_eq_getElem _ 0 hn] at h
  exact h ▸ List.getElem_mem hn

theorem two_le_count_of_two {l : List Nat} {i j v : Nat} (hij : i < j)
    (hj : j < l.length) (hvi : l.getD i 0 = v) (hvj : l.getD j 0 = v) :
    2 ≤ l.count v := by
  induction l generalizing i j with
  | nil => simp at hj
  | cons x xs ih =>
    cases i with
    | zero =>
      have hx : x = v := by simpa using hvi
      cases j with
      | zero => omega
      | succ j' =>
        have hj' : j' < xs.length := by simpa using hj
        have hvj' : xs.getD j' 0 = v := by simpa using hvj
        have hmem : v ∈ xs := mem_of_getD hj' hvj'
        have h1 : 1 ≤ xs.count v := List.count_pos_iff.mpr hmem
        rw [hx, List.count_cons_self]
        omega
    | succ i' =>
      cases j with
      | zero => omega
      | succ j' =>
        have hvi' : xs.getD i' 0 = v := by simpa using hvi
        have hvj' : xs.getD j' 0 = v := by simpa using hvj
        have h2 : 2 ≤ xs.count v := ih (by omega) (by simpa using hj) hvi' hvj'
        calc 2 ≤ xs.count v := h2
          _ ≤ (x :: xs).count v := by
            rw [List.count_cons]
            omega

theorem rowOf_getD {b : Nat} (g : Grid) (r : Nat) {c : Nat} (hc : c < b * b) :
    (rowOf g b r).getD c 0 = cell g r c := by
  unfold rowOf
  rw [List.getD_eq_getElem _ 0 (by simpa using hc)]
  simp [List.getElem_map, List.getElem_range]

/-! ## Concrete grids used in the claims -/

/-! ## The claims -/

/-- C1: for every well-formed grid whose pre-filled non-zero cells
satisfy the partial invariant (no two equal non-zero values share a row,
column, or box), if `SudokuSolver.solve` returns `true` then the final
grid has no zero cells and every row, column and `box_size × box_size`
box contains each value in `[1, size]` exactly once. -/
theorem C1_solve_true_yields_solved_grid {b : Nat} {g g' : Grid}
    (hwf : WfGrid b g) (hcons : Consistent b g) (h : solve g = (true, g')) :
    NoZeroCells b g' ∧ Solved b g' := by
  unfold solve at h
  rw [hwf.1] at h
  obtain ⟨hwf', hcons', hfe⟩ := solveFuel_sound _ _ _ hwf hcons h
  have hfull := noZeroCells_of_find_none hwf' hfe
  exact ⟨hfull, solved_of_full hwf' hcons' hfull⟩

/-- Witness for C1 at the concrete 4×4 puzzle `g4`. -/
theorem C1_witness : NoZeroCells 2 (solve g4).2 ∧ Solved 2 (solve g4).2 :=
  @C1_solve_true_yields_solved_grid 2 g4 (solve g4).2
    (by decide) (by decide) (by decide)

/-- C2: whenever `SudokuSolver.solve` returns `false`, the grid is left
exactly in its pre-call state (every tentative placement undone). -/
theorem C2_solve_false_restores_grid {g g' : Grid}
    (h : solve g = (false, g')) : g' = g := by
  unfold solve at h
  exact solveFuel_restore _ _ _ _ h

/-- Witness for C2 at the unsolvable grid `gUnsat`. -/
theorem C2_witness : (solve gUnsat).2 = gUnsat :=
  C2_solve_false_restores_grid (by decide)

/-- C3 counterexample: `gDup` has two equal non-zero cells in row 0
(columns 0 and 1 both hold 1), yet `solve` returns `true` and modifies
the grid, contradicting the claim that it returns `false` and leaves the
grid unchanged. -/
theorem C3_counterexample :
    cell gDup 0 0 = 1 ∧ cell gDup 0 1 = 1 ∧ cell gDup 0 0 ≠ 0 ∧
    (solve gDup).1 = true ∧ (solve gDup).2 ≠ gDup := by
  decide

/-- C3 (amended): for every well-formed grid containing two equal
non-zero cells in the same row, `solve` can never produce a validly
solved grid: if it returns `false` the grid is byte-for-byte unchanged,
and if it returns `true` the duplicate persists in the output (the
solver never overwrites non-zero cells), so the result violates the
solved invariant. -/
theorem C3_row_conflict_never_solves {b : Nat} {g : Grid} {r c1 c2 : Nat}
    (hwf : WfGrid b g) (hr : r < b * b) (hc1 : c1 < b * b) (hc2 : c2 < b * b)
    (hcc : c1 ≠ c2) (hnz : cell g r c1 ≠ 0)
    (heq : cell g r c1 = cell g r c2) :
    (∀ g', solve g = (false, g') → g' = g) ∧
    ((solve g).1 = true → ¬ Solved b (solve g).2) := by
  constructor
  · intro g' h
    unfold solve at h
    exact solveFuel_restore _ _ _ _ h
  · intro _ hsolved
    have hframe : ∀ rr cc, cell g rr cc ≠ 0 →
        cell (solve g).2 rr cc = cell g rr cc := by
      intro rr cc hnzc
      exact solveFuel_frame g.length (countZeros g + 1) g
        (solve g).1 (solve g).2 rfl rr cc hnzc
    have hnz2 : cell g r c2 ≠ 0 := by rw [← heq]; exact hnz
    have h1 : cell (solve g).2 r c1 = cell g r c1 := hframe r c1 hnz
    have h2 : cell (solve g).2 r c2 = cell g r c1 :=
      (hframe r c2 hnz2).trans heq.symm
    have hv1 : 1 ≤ cell g r c1 := Nat.one_le_iff_ne_zero.mpr hnz
    have hvle : cell g r c1 ≤ b * b := cell_le_of_wf hwf r c1
    have hcount := hsolved.1 r hr (cell g r c1) hvle hv1
    have hlen : (rowOf (solve g).2 b r).length = b * b := by simp [rowOf]
    have hg1 : (rowOf (solve g).2 b r).getD c1 0 = cell g r c1 := by
      rw [rowOf_getD _ r hc1]; exact h1
    have hg2 : (rowOf (solve g).2 b r).getD c2 0 = cell g r c1 := by
      rw [rowOf_getD _ r hc2]; exact h2
    have h2le : 2 ≤ (rowOf (solve g).2 b r).count (cell g r c1) := by
      rcases Nat.lt_or_ge c1 c2 with hlt | hge
      · exact two_le_count_of_two hlt (hlen ▸ hc2) hg1 hg2
      · have hlt : c2 < c1 := by omega
        exact two_le_count_of_two hlt (hlen ▸ hc1) hg2 hg1
    omega

/-- Witness for the amended C3 at the concrete grid `gDup`. -/
theorem C3_witness : ¬ Solved 2 (solve gDup).2 :=
  (@C3_row_conflict_never_solves 2 gDup 0 0 1 (by decide) (by decide)
    (by decide) (by decide) (by decide) (by decide) (by decide)).2 (by decide)

/-- C4 counterexample: on the spec's 4×4 scenario grid the solver does
not produce the grid the spec claims; indeed the claimed solution
contradicts the puzzle's own clue at `(2, 2)` (the clue is 1, the
claimed grid holds 4 there). -/
theorem C4_counterexample :
    (solve g4).2 ≠ g4claimed ∧ cell g4 2 2 = 1 ∧ cell g4claimed 2 2 = 4 := by
  decide

/-- C4 (amended): the spec's 4×4 scenario grid, solved by the
ascending-candidate-order backtracking solver, returns `true` and yields
exactly `1 2 4 3 / 3 4 2 1 / 4 3 1 2 / 2 1 3 4`, with the scan starting
at the first empty cell `(0, 2)`. -/
theorem C4_deterministic_4x4 :
    solve g4 = (true, g4solution) ∧ find_empty_cell g4 = some (0, 2) := by
  decide

/-- C10: for both outcomes of `SudokuSolver.solve`, every cell that held
a non-zero value before the call holds that same value after it: the
solver only writes to cells that were zero. -/
theorem C10_solver_preserves_clues {g g' : Grid} {res : Bool}
    (h : solve g = (res, g')) :
    ∀ r c, cell g r c ≠ 0 → cell g' r c = cell g r c := by
  unfold solve at h
  exact fun r c hnz => solveFuel_frame _ _ _ _ _ h r c hnz

/-- Witness for C10 at the concrete 4×4 puzzle `g4` and cell `(0, 0)`. -/
theorem C10_witness : cell (solve g4).2 0 0 = cell g4 0 0 :=
  @C10_solver_preserves_clues g4 (solve g4).2 (solve g4).1 rfl 0 0 (by decide)

/-- C5: for every size that is a perfect square, `SudokuGrid.__init__`
succeeds and yields a `size × size` all-zero grid with `box_size` the
integer square root of `size`; for every other size it fails with the
invalid-size error and no grid is produced. -/
theorem C5_grid_init_iff_perfect_square (size : Nat) :
    ((∃ bsz, bsz * bsz = size) → ∃ sg, sudokuGridInit size = Except.ok sg ∧
      sg.size = size ∧ sg.box_size = isqrt size ∧
      sg.box_size * sg.box_size = size ∧
      sg.grid.length = size ∧ (∀ row ∈ sg.grid, row.length = size) ∧
      (∀ r c, cell sg.grid r c = 0)) ∧
    ((¬ ∃ bsz, bsz * bsz = size) →
      ∃ msg, sudokuGridInit size = Except.error msg) := by
  constructor
  · intro hsq
    have hs : Nat.sqrt size * Nat.sqrt size = size :=
      (Nat.exists_mul_self size).mp hsq
    have hs' : isqrt size * isqrt size = size := by rw [isqrt_eq_sqrt]; exact hs
    refine ⟨⟨size, isqrt size, List.replicate size (List.replicate size 0)⟩,
      ?_, rfl, rfl, hs', by simp, ?_, ?_⟩
    · unfold sudokuGridInit
      rw [if_neg (fun hne => hne hs')]
    · intro row hrow
      rw [List.eq_of_mem_replicate hrow]
      simp
    · intro r c
      exact cell_replicate_zero size r c
  · intro hsq
    have hne : isqrt size * isqrt size ≠ size := by
      rw [isqrt_eq_sqrt]
      exact fun he => hsq ((Nat.exists_mul_self size).mpr he)
    refine ⟨("taille invalide: pas un carre parfait"), ?_⟩
    unfold sudokuGridInit
    rw [if_pos hne]

/-- Witness for C5 at the perfect square 4 and the non-square 5. -/
theorem C5_witness :
    (∃ sg, sudokuGridInit 4 = Except.ok sg ∧ sg.size = 4 ∧
      sg.box_size = isqrt 4 ∧ sg.box_size * sg.box_size = 4 ∧
      sg.grid.length = 4 ∧ (∀ row ∈ sg.grid, row.length = 4) ∧
      (∀ r c, cell sg.grid r c = 0)) ∧
    (∃ msg, sudokuGridInit 5 = Except.error msg) :=
  ⟨(C5_grid_init_iff_perfect_square 4).1 ⟨2, rfl⟩,
    (C5_grid_init_iff_perfect_square 5).2 (by
      rintro ⟨bsz, h⟩
      have hle : bsz ≤ 2 := by
        by_contra hgt
        have h3 : 3 ≤ bsz := by omega
        have h9 : 9 ≤ bsz * bsz := Nat.mul_le_mul h3 h3
        omega
      interval_cases bsz <;> omega)⟩

/-- C6: for every well-formed grid and in-range cell, both validity
checks (`SudokuSolver.is_valid` and `SudokuGrid.is_valid`) return `true`
iff the value appears nowhere in the cell's row, column, or box; neither
checks that the target cell itself is empty (the specification predicate
`ValidAt` has no emptiness conjunct). -/
theorem C6_is_valid_iff_spec {b : Nat} {g : Grid} {row : Nat} (col num : Nat)
    (hwf : WfGrid b g) (hrow : row < b * b) :
    (solver_is_valid (b * b) g row col num = true ↔ ValidAt b g row col num) ∧
    (grid_is_valid (b * b) g row col num = true ↔ ValidAt b g row col num) :=
  ⟨solver_is_valid_iff b g row col num, grid_is_valid_iff hwf hrow col num⟩

/-- Witness for C6 at `g4`, cell `(0, 1)` (an occupied cell). -/
theorem C6_witness :
    (solver_is_valid 4 g4 0 1 3 = true ↔ ValidAt 2 g4 0 1 3) ∧
    (grid_is_valid 4 g4 0 1 3 = true ↔ ValidAt 2 g4 0 1 3) :=
  @C6_is_valid_iff_spec 2 g4 0 1 3 (by decide) (by decide)

/-- C7: for every box dimension `b` (so every valid perfect-square size
`b * b`) and every outcome of the random shuffles (any oracle whose
draws are permutations of `[1, size]`), `generate_complete_grid`
succeeds, its internal fill returns `true`, and the produced grid is
fully filled and satisfies the solved invariant; consequently
`create_puzzle` always succeeds for such a size. -/
theorem C7_generate_complete_grid_valid (b : Nat) (oracle : Nat → List Nat)
    (horacle : ∀ k, (oracle k).Perm (List.range' 1 (b * b))) :
    ∃ g k, generate_complete_grid (b * b) oracle = Except.ok (true, g, k) ∧
      NoZeroCells b g ∧ Solved b g ∧
      (∀ positions difficulty,
        ∃ p, create_puzzle (b * b) oracle positions difficulty = Except.ok p) := by
  have hinit : sudokuGridInit (b * b) = Except.ok
      ⟨b * b, b, List.replicate (b * b) (List.replicate (b * b) 0)⟩ := by
    unfold sudokuGridInit
    rw [sqrt_mul_self b, if_neg (fun hne => hne rfl)]
  have hgen0 : generate_complete_grid (b * b) oracle = Except.ok
      (fillFuel (b * b) oracle
        (countZeros (List.replicate (b * b) (List.replicate (b * b) 0)) + 1)
        (List.replicate (b * b) (List.replicate (b * b) 0)) 0) := by
    unfold generate_complete_grid
    rw [hinit]
  rcases hres : fillFuel (b * b) oracle
      (countZeros (List.replicate (b * b) (List.replicate (b * b) 0)) + 1)
      (List.replicate (b * b) (List.replicate (b * b) 0)) 0 with ⟨ok, g, k⟩
  have hok : ok = true := by
    have := fillFuel_complete oracle horacle
      (countZeros (List.replicate (b * b) (List.replicate (b * b) 0)) + 1)
      (List.replicate (b * b) (List.replicate (b * b) 0)) 0 (by omega)
      (wfGrid_empty b) (consistent_empty b)
      ⟨formulaGrid b, completes_empty_formulaGrid b⟩
    rw [hres] at this
    exact this
  subst hok
  have hbounds : ∀ k2, ∀ n ∈ oracle k2, 1 ≤ n ∧ n ≤ b * b := by
    intro k2 n hn
    rw [(horacle k2).mem_iff, List.mem_range'_1] at hn
    omega
  obtain ⟨hwf', hcons', hfe⟩ := fillFuel_sound oracle hbounds _ _ 0 g k
    (wfGrid_empty b) (consistent_empty b) hres
  have hfull := noZeroCells_of_find_none hwf' hfe
  have hgen : generate_complete_grid (b * b) oracle = Except.ok (true, g, k) :=
    hgen0.trans (congrArg Except.ok hres)
  refine ⟨g, k, hgen, hfull, solved_of_full hwf' hcons' hfull, ?_⟩
  intro positions difficulty
  refine ⟨removeCells g positions (cells_to_remove (b * b) difficulty), ?_⟩
  unfold create_puzzle
  rw [hgen]

/-- Witness for C7 at `b = 2` with the constant ascending oracle. -/
theorem C7_witness :
    ∃ g k, generate_complete_grid 4 (fun _ => [1, 2, 3, 4]) =
        Except.ok (true, g, k) ∧
      NoZeroCells 2 g ∧ Solved 2 g ∧
      (∀ positions difficulty, ∃ p,
        create_puzzle 4 (fun _ => [1, 2, 3, 4]) positions difficulty =
          Except.ok p) :=
  C7_generate_complete_grid_valid 2 (fun _ => [1, 2, 3, 4])
    (fun _ => show [1, 2, 3, 4].Perm (List.range' 1 (2 * 2)) from by decide)

/-- C8: for every well-formed fully-filled grid, difficulty string and
shuffled position list, `create_puzzle`'s removal loop blanks exactly
`cells_to_remove = min(k * size, size*size - size)` cells (`k` being 7,
8 or 9 by difficulty tier, increasing from easy to hard), never leaving
more than `size*size - size` empty cells, so at least `size` cells stay
filled; in particular for size 9, "hard" removes more cells than
"easy". -/
theorem C8_create_puzzle_removal_count {b : Nat} {g : Grid}
    {positions : List (Nat × Nat)} (difficulty : String)
    (hwf : WfGrid b g) (hfull : NoZeroCells b g)
    (hperm : positions.Perm (allCoords (b * b))) :
    countZeros (removeCells g positions (cells_to_remove (b * b) difficulty)) =
      cells_to_remove (b * b) difficulty ∧
    cells_to_remove (b * b) difficulty ≤ b * b * (b * b) - b * b ∧
    b * b ≤ b * b * (b * b) -
      countZeros (removeCells g positions (cells_to_remove (b * b) difficulty)) ∧
    (∀ sz : Nat, cells_to_remove sz ("easy") ≤ cells_to_remove sz ("medium") ∧
      cells_to_remove sz ("medium") ≤ cells_to_remove sz ("hard")) ∧
    cells_to_remove 9 ("easy") < cells_to_remove 9 ("hard") := by
  have hctr_le : cells_to_remove (b * b) difficulty ≤ b * b * (b * b) - b * b := by
    unfold cells_to_remove
    exact Nat.min_le_right _ _
  have hnodup_pos : positions.Nodup :=
    hperm.nodup_iff.mpr (nodup_allCoords _)
  have hnodup : (positions.take (cells_to_remove (b * b) difficulty)).Nodup :=
    List.Nodup.sublist (List.take_sublist _ _) hnodup_pos
  have hlen_pos : positions.length = b * b * (b * b) :=
    hperm.length_eq.trans (length_allCoords _)
  have hut : b * b ≤ b * b * (b * b) := by
    rcases Nat.eq_zero_or_pos (b * b) with h | h
    · omega
    · exact Nat.le_mul_of_pos_right _ h
  have hlen : (positions.take (cells_to_remove (b * b) difficulty)).length =
      cells_to_remove (b * b) difficulty := by
    rw [List.length_take]
    omega
  have hbounds : ∀ p ∈ positions.take (cells_to_remove (b * b) difficulty),
      p.1 < g.length ∧ p.2 < (g.getD p.1 []).length ∧ cell g p.1 p.2 ≠ 0 := by
    intro p hp
    have hmem : p ∈ allCoords (b * b) :=
      (hperm.mem_iff).mp (List.mem_of_mem_take hp)
    obtain ⟨h1, h2⟩ := mem_allCoords.mp hmem
    have hgl : p.1 < g.length := hwf.1 ▸ h1
    refine ⟨hgl, ?_, hfull p.1 h1 p.2 h2⟩
    rw [hwf.2.1 _ (getD_mem g hgl)]
    exact h2
  have hz0 : countZeros g = 0 := countZeros_eq_zero_of_full hwf hfull
  have hcount := countZeros_removeList
    (positions.take (cells_to_remove (b * b) difficulty)) g hnodup hbounds
  rw [hz0, hlen, Nat.zero_add] at hcount
  have hcount2 : countZeros
      (removeCells g positions (cells_to_remove (b * b) difficulty)) =
      cells_to_remove (b * b) difficulty := hcount
  refine ⟨hcount2, hctr_le, by omega, ?_, by decide⟩
  intro sz
  have e1 : cells_to_remove sz ("easy") = min (sz * 7) (sz * sz - sz) := rfl
  have e2 : cells_to_remove sz ("medium") = min (sz * 8) (sz * sz - sz) := rfl
  have e3 : cells_to_remove sz ("hard") = min (sz * 9) (sz * sz - sz) := rfl
  rw [e1, e2, e3]
  constructor
  · exact min_le_min (by omega) (Nat.le_refl _)
  · exact min_le_min (by omega) (Nat.le_refl _)

/-- Witness for C8 at the complete 4×4 grid `gFull4` with the identity
position ordering and difficulty `"easy"`. -/
theorem C8_witness :
    countZeros (removeCells gFull4 (allCoords 4) (cells_to_remove 4 ("easy"))) =
      cells_to_remove 4 ("easy") ∧
    cells_to_remove 4 ("easy") ≤ 2 * 2 * (2 * 2) - 2 * 2 ∧
    2 * 2 ≤ 2 * 2 * (2 * 2) -
      countZeros (removeCells gFull4 (allCoords 4) (cells_to_remove 4 ("easy"))) ∧
    (∀ sz : Nat, cells_to_remove sz ("easy") ≤ cells_to_remove sz ("medium") ∧
      cells_to_remove sz ("medium") ≤ cells_to_remove sz ("hard")) ∧
    cells_to_remove 9 ("easy") < cells_to_remove 9 ("hard") :=
  @C8_create_puzzle_removal_count 2 gFull4 (allCoords 4) ("easy")
    (by decide) (by decide) (List.Perm.refl _)

/-- C9: the character encoding round-trips every value in `[0, 35]`
(`.` encodes 0, digits encode 1–9, letters encode 10–35), and hence
serializing a grid whose cells all lie in `[0, 35]` one character per
cell and decoding it back reproduces a structurally equal grid. -/
theorem C9_encoding_roundtrip :
    (∀ v, v ≤ 35 → (value_to_char v).bind char_to_value = Except.ok v) ∧
    (∀ g : Grid, (∀ row ∈ g, ∀ v ∈ row, v ≤ 35) →
      ∃ ls, encodeGrid g = Except.ok ls ∧ decodeGrid ls = Except.ok g) :=
  ⟨value_char_roundtrip, grid_roundtrip⟩

/-- Witness for C9 at the value 35 and the grid `[[0, 9, 10, 35]]`. -/
theorem C9_witness :
    (value_to_char 35).bind char_to_value = Except.ok 35 ∧
    ∃ ls, encodeGrid [[0, 9, 10, 35]] = Except.ok ls ∧
      decodeGrid ls = Except.ok [[0, 9, 10, 35]] :=
  ⟨C9_encoding_roundtrip.1 35 (by decide),
    C9_encoding_roundtrip.2 [[0, 9, 10, 35]] (by decide)⟩

end Sudoku
